import Mathlib

/-!
Verification of the `fast-backups` max-throughput program
(`src/fast_backups.py`).

The Python program computes a maximum flow with Ford-Fulkerson / BFS on a
residual network built from per-node capacities (`maxIn`/`maxOut`), channel
capacities, one origin and a list of targets.  We embed the program shallowly:

* an `Edge` is the Python `Edge` object (`u`, `v`, mutable capacity `w : Int`);
* the residual network (`Graph.vertices`, each `Vertex` holding its adjacency
  list) is a `List (List Edge)` indexed by vertex id;
* the transient BFS search state (`discovered`, `previous`, the deque) is
  passed explicitly as `BfsState`; the `visited` flag is written by the Python
  code but never read, so it is omitted;
* the unbounded `while` loops of `hasAugmentingPath`, `getAugmentingPath` and
  `fordFulkerson` become fuelled recursions returning `Option`; `none` stands
  for "the Python program does not produce a result here" (it either loops
  forever or raises).  The inner fuels `g.length + 2` (BFS pops each vertex at
  most once after the initial source pop) and `g.length + 1` (a terminating
  predecessor walk visits distinct vertices) are proved / argued sufficient
  whenever the Python loops terminate, so only genuinely non-terminating or
  crashing runs map to `none`.

Python indexing `xs[i]` is modelled with `List.getD`; all runs reachable from
well-formed inputs stay in range, where the two coincide.
-/

/-- The Python `Edge` class: a directed arc `u → v` with residual capacity `w`
(mutated in place as flow is pushed; here edges are replaced functionally). -/
structure Edge where
  u : Nat
  v : Nat
  w : Int
  deriving DecidableEq, Repr

/-- The residual network: `vertices[i].edges` of the Python `Graph` class,
indexed by vertex id. -/
abbrev Graph := List (List Edge)

/-- `Vertex.add_edge` performed during `Graph.__init__`: append an edge to the
adjacency list of its departure vertex `e.u`. -/
def addEdge (vertices : Graph) (e : Edge) : Graph :=
  vertices.set e.u (vertices.getD e.u [] ++ [e])

/-- `Graph.__init__`: start from `total_vertices` empty adjacency lists and add
every connection `(u, v, w)` in order. -/
def mkGraph (connections : List (Nat × Nat × Int)) (total_vertices : Nat) : Graph :=
  connections.foldl (fun vs c => addEdge vs ⟨c.1, c.2.1, c.2.2⟩)
    (List.replicate total_vertices [])

/-- The transient per-round search state of the Python `Vertex` objects
(`discovered`, `previous`) together with the BFS deque of `hasAugmentingPath`.
The queue holds vertex ids (Python holds the `Vertex` objects themselves). -/
structure BfsState where
  discovered : List Bool
  prev : List (Option Nat)
  queue : List Nat
  deriving DecidableEq, Repr

/-- Body of the inner `for edge in u.edges` loop of `hasAugmentingPath`:
`if v.discovered == False and edge.w > 0`, mark `v` discovered, record the
predecessor and append `v` to the deque. -/
def relaxEdge (u : Nat) (st : BfsState) (e : Edge) : BfsState :=
  if st.discovered.getD e.v false = false ∧ 0 < e.w then
    { discovered := st.discovered.set e.v true
      prev := st.prev.set e.v (some u)
      queue := st.queue ++ [e.v] }
  else st

/-- The `while len(queue) > 0` loop of `Graph.hasAugmentingPath`: pop the first
vertex, return `True` when it is the sink, otherwise relax all its edges.
The result also carries the `previous` pointers that the Python code leaves on
the `Vertex` objects for the subsequent backtracking. -/
def bfsLoop (g : Graph) (sink : Nat) : Nat → BfsState → Option (Bool × List (Option Nat))
  | 0, _ => none
  | fuel + 1, st =>
    match st.queue with
    | [] => some (false, st.prev)
    | u :: rest =>
      if u = sink then some (true, st.prev)
      else bfsLoop g sink fuel ((g.getD u []).foldl (relaxEdge u) { st with queue := rest })

/-- `Graph.hasAugmentingPath(source, sink)`: BFS from a fresh search state whose
deque holds only the source (which, as in the Python code, is *not* marked
discovered).  Fuel `g.length + 2` suffices for every terminating Python run:
each loop iteration pops one queue entry and every vertex is enqueued at most
once (plus the initial source entry). -/
def hasAugmentingPath (g : Graph) (source sink : Nat) : Option (Bool × List (Option Nat)) :=
  bfsLoop g sink (g.length + 2)
    ⟨List.replicate g.length false, List.replicate g.length none, [source]⟩

/-- The inner `for edge in self.vertices[current].edges` scan of
`Graph.getAugmentingPath`: fold the `smallest_value` accumulator (sentinel `-1`)
over every edge whose head matches `previous`. -/
def scanMin (edges : List Edge) (previous : Nat) (smallest : Int) : Int :=
  edges.foldl
    (fun s e =>
      if e.v = previous then
        if s = -1 then e.w else if e.w < s then e.w else s
      else s)
    smallest

/-- The `while current != source` loop of `Graph.getAugmentingPath`: append
`current` to the path, step to `self.vertices[current].previous` and fold the
bottleneck scan over the predecessor's adjacency list.  A missing predecessor
(`None` in Python, which would raise) or exhausted fuel (a cyclic predecessor
chain, on which Python loops forever) yields `none`. -/
def getAugmentingPathLoop (g : Graph) (prev : List (Option Nat)) (source : Nat) :
    Nat → Nat → List Nat → Int → Option (List Nat × Int)
  | fuel, current, path, smallest =>
    if current = source then some ((path ++ [source]).reverse, smallest)
    else
      match fuel with
      | 0 => none
      | fuel + 1 =>
        match prev.getD current none with
        | none => none
        | some nxt =>
          getAugmentingPathLoop g prev source fuel nxt (path ++ [current])
            (scanMin (g.getD nxt []) current smallest)

/-- `Graph.getAugmentingPath(source, sink)`: backtrack from the sink along the
`previous` pointers left by the BFS, building the reversed path and the minimum
residual capacity (`smallest_value`, initialised to `-1`). -/
def getAugmentingPath (g : Graph) (prev : List (Option Nat)) (source sink : Nat) :
    Option (List Nat × Int) :=
  getAugmentingPathLoop g prev source (g.length + 1) sink [] (-1)

/-- First inner loop of the augmentation step of `fordFulkerson`: decrease by
`b` the capacity of the first edge of the list whose head is `tgt`
(`edge.w -= smallest_value; break`). -/
def updateForward : List Edge → Nat → Int → List Edge
  | [], _, _ => []
  | e :: es, tgt, b =>
    if e.v = tgt then ⟨e.u, e.v, e.w - b⟩ :: es
    else e :: updateForward es tgt b

/-- Second inner loop of the augmentation step of `fordFulkerson`: increase by
`b` the capacity of the first edge of the list whose head is `tgt`
(`edge.w += smallest_value; break`). -/
def updateBackward : List Edge → Nat → Int → List Edge
  | [], _, _ => []
  | e :: es, tgt, b =>
    if e.v = tgt then ⟨e.u, e.v, e.w + b⟩ :: es
    else e :: updateBackward es tgt b

/-- The pair of capacity updates performed for one pair `(u, v)` during the
augmentation step: decrease the first `u → v` edge by `b` in `u`'s adjacency
list, then increase the first `v → u` edge by `b` in `v`'s adjacency list (the
second scan runs on the already-updated graph, as the Python objects alias). -/
def updatePair (b : Int) (g : Graph) (u v : Nat) : Graph :=
  let g1 := g.set u (updateForward (g.getD u []) v b)
  g1.set v (updateBackward (g1.getD v []) u b)

/-- One iteration of the `for i in range(1, len(path)-1)` loop of
`fordFulkerson`: `v = self.vertices[path[i]]`, `u = v.previous`, decrease the
first `u → v` edge and increase the first `v → u` edge by the bottleneck.
Python would raise if `v.previous` were unset; that situation is unreachable
when the path came from a successful backtrack, and is modelled as a no-op. -/
def augmentStep (b : Int) (prev : List (Option Nat)) (g : Graph) (v : Nat) : Graph :=
  match prev.getD v none with
  | none => g
  | some u => updatePair b g u v

/-- The augmentation step of `fordFulkerson`: the loop index `i` runs over
`range(1, len(path)-1)`, i.e. over the path elements `path.tail.dropLast`
(every vertex except the first and, notably, except the last one). -/
def augment (g : Graph) (prev : List (Option Nat)) (path : List Nat) (b : Int) : Graph :=
  (path.tail.dropLast).foldl (augmentStep b prev) g

/-- One iteration of the `while self.hasAugmentingPath(source, sink)` loop of
`Graph.fordFulkerson`: `some none` means the BFS found no augmenting path (the
loop exits), `some (some (g', b))` is the updated residual network and the
bottleneck pushed, and `none` means the Python code produces no result.  The
final reset of `discovered` / `visited` / `previous` is implicit: each round
starts from a fresh `BfsState`. -/
def ffStep (g : Graph) (source sink : Nat) : Option (Option (Graph × Int)) :=
  match hasAugmentingPath g source sink with
  | none => none
  | some (false, _) => some none
  | some (true, prev) =>
    match getAugmentingPath g prev source sink with
    | none => none
    | some (path, smallest) => some (some (augment g prev path smallest, smallest))

/-- The `while` loop of `Graph.fordFulkerson`, with `flow` accumulating either
the returned maximum flow or, when no augmenting path remains, being returned. -/
def ffLoop (source sink : Nat) : Nat → Graph → Int → Option Int
  | 0, _, _ => none
  | fuel + 1, g, flow =>
    match ffStep g source sink with
    | none => none
    | some none => some flow
    | some (some (g', smallest)) => ffLoop source sink fuel g' (flow + smallest)

/-- `Graph.fordFulkerson(source, sink)`: run the augmenting loop from zero flow.
The fuel bounds the number of augmentation rounds Python would execute. -/
def fordFulkerson (fuel : Nat) (g : Graph) (source sink : Nat) : Option Int :=
  ffLoop source sink fuel g 0

/-- The state of the residual network together with the accumulated flow after
a given number of completed augmentation rounds of `fordFulkerson` (`none` when
fewer rounds happen or the program produces no result). -/
def ffRounds (source sink : Nat) : Nat → Graph → Int → Option (Graph × Int)
  | 0, g, flow => some (g, flow)
  | k + 1, g, flow =>
    match ffStep g source sink with
    | some (some (g', s)) => ffRounds source sink k g' (flow + s)
    | _ => none

/-- The `preprocessed_connections` list built by `maxThroughput`: the four
Python loops appending, in order, the `Vin → V` pairs, the `V → Vout` pairs,
the channel pairs and the target-to-super-target pairs, each forward edge
immediately followed by its zero-capacity backward edge. -/
def preprocessedConnections (connections : List (Nat × Nat × Int))
    (maxIn maxOut : List Int) (targets : List Nat) : List (Nat × Nat × Int) :=
  let total_centre := maxIn.length
  let l1 := (List.range maxIn.length).foldl
    (fun acc i => acc ++ [(i + total_centre, i, maxIn.getD i 0), (i, i + total_centre, 0)]) []
  let l2 := (List.range maxOut.length).foldl
    (fun acc i =>
      acc ++ [(i, i + total_centre * 2, maxOut.getD i 0), (i + total_centre * 2, i, 0)]) l1
  let l3 := (List.range connections.length).foldl
    (fun acc i =>
      let c := connections.getD i (0, 0, 0)
      acc ++ [(c.1 + total_centre * 2, c.2.1 + total_centre, c.2.2),
              (c.2.1 + total_centre, c.1 + total_centre * 2, 0)]) l2
  (List.range targets.length).foldl
    (fun acc i =>
      let t := targets.getD i 0
      acc ++ [(t, total_centre * 3, maxIn.getD t 0), (total_centre * 3, t, 0)]) l3

/-- `maxThroughput(connections, maxIn, maxOut, origin, targets)`: build the
residual network on `3 * len(maxIn) + 1` vertices from the preprocessed
connection list and run Ford-Fulkerson from the origin to the super target
`3 * len(maxIn)`.  The fuel bounds the number of augmentation rounds. -/
def maxThroughput (fuel : Nat) (connections : List (Nat × Nat × Int))
    (maxIn maxOut : List Int) (origin : Nat) (targets : List Nat) : Option Int :=
  let total_centre := maxIn.length
  let graph := mkGraph (preprocessedConnections connections maxIn maxOut targets)
    (total_centre * 3 + 1)
  fordFulkerson fuel graph origin (total_centre * 3)

/-! ## Fixpoint divergence helper

When one round of `fordFulkerson` maps a residual network to itself, the
Python `while` loop never exits: the Lean model returns `none` at every fuel. -/

theorem ffLoop_none_of_fix (source sink : Nat) (g : Graph) (b : Int)
    (h : ffStep g source sink = some (some (g, b))) :
    ∀ fuel flow, ffLoop source sink fuel g flow = none := by
  intro fuel
  induction fuel with
  | zero => intro flow; rfl
  | succ n ih =>
    intro flow
    simp only [ffLoop, h]
    exact ih (flow + b)

/-- The residual network that `maxThroughput` builds for the parallel-channel
input `connections=[(0,1,1),(0,1,2)], maxIn=[3,3], maxOut=[3,3], targets=[1]`,
after its first augmentation round (path `0,4,3,1,6` with bottleneck `1`). -/
def parallelRound1 : Graph :=
  [[⟨0, 2, 0⟩, ⟨0, 4, 2⟩],
   [⟨1, 3, 1⟩, ⟨1, 5, 3⟩, ⟨1, 6, 3⟩],
   [⟨2, 0, 3⟩],
   [⟨3, 1, 2⟩, ⟨3, 4, 1⟩, ⟨3, 4, 0⟩],
   [⟨4, 0, 1⟩, ⟨4, 3, 0⟩, ⟨4, 3, 2⟩],
   [⟨5, 1, 0⟩],
   [⟨6, 1, 0⟩]]

set_option maxHeartbeats 1000000 in
/-- C1: the claim says that `maxThroughput` terminates on every well-formed
input, in particular with parallel channels between the same ordered pair of
nodes.  The code violates this: on `connections=[(0,1,1),(0,1,2)]`,
`maxIn=maxOut=[3,3]`, `origin=0`, `targets=[2... 1]` the first round saturates
the first parallel channel edge; from the second round on, the bottleneck scan
(which takes the minimum over *all* parallel edges between consecutive path
vertices, including the saturated one) returns `0`, no capacity changes, and
the `while` loop repeats the identical round forever.  The model returns no
result at any fuel. -/
theorem parallel_channels_diverge :
    ∀ fuel, maxThroughput fuel [(0, 1, 1), (0, 1, 2)] [3, 3] [3, 3] 0 [1] = none := by
  intro fuel
  show ffLoop 0 6 fuel (mkGraph (preprocessedConnections [(0, 1, 1), (0, 1, 2)]
    [3, 3] [3, 3] [1]) 7) 0 = none
  cases fuel with
  | zero => rfl
  | succ n =>
    have h0 : ffStep (mkGraph (preprocessedConnections [(0, 1, 1), (0, 1, 2)]
        [3, 3] [3, 3] [1]) 7) 0 6 = some (some (parallelRound1, 1)) := by decide
    simp only [ffLoop, h0]
    exact ffLoop_none_of_fix 0 6 parallelRound1 0 (by decide) n (0 + 1)

/-- The residual network for `connections=[(0,1,1),(0,1,3)]`,
`maxIn=maxOut=[5,5]`, `targets=[1]` after its first augmentation round. -/
def parallelRound1' : Graph :=
  [[⟨0, 2, 0⟩, ⟨0, 4, 4⟩],
   [⟨1, 3, 1⟩, ⟨1, 5, 5⟩, ⟨1, 6, 5⟩],
   [⟨2, 0, 5⟩],
   [⟨3, 1, 4⟩, ⟨3, 4, 1⟩, ⟨3, 4, 0⟩],
   [⟨4, 0, 1⟩, ⟨4, 3, 0⟩, ⟨4, 3, 3⟩],
   [⟨5, 1, 0⟩],
   [⟨6, 1, 0⟩]]

/-- Total capacity of the edges of `g` leaving the vertex set `s`: the value of
the cut `(s, complement of s)`. -/
def cutCapacity (g : Graph) (s : List Nat) : Int :=
  (g.flatten.filter (fun e => e.u ∈ s ∧ e.v ∉ s)).foldl (fun a e => a + e.w) 0

set_option maxHeartbeats 1000000 in
/-- C2: the claim says the integer returned by `maxThroughput` equals the
minimum cut capacity separating the origin from the super-sink `3N` in the
transformed graph, for every well-formed input.  On the well-formed input
`connections=[(0,1,1),(0,1,3)]`, `maxIn=maxOut=[5,5]`, `origin=0`,
`targets=[1]` the transformed graph has a finite cut of capacity `4`
(cutting the two parallel channel edges), yet the code returns nothing at all:
after the first round the bottleneck scan over the parallel edges yields `0`
forever, so no integer is ever returned and the claimed equality fails. -/
theorem mincut_not_returned :
    (∀ fuel, maxThroughput fuel [(0, 1, 1), (0, 1, 3)] [5, 5] [5, 5] 0 [1] = none)
    ∧ cutCapacity (mkGraph (preprocessedConnections [(0, 1, 1), (0, 1, 3)]
        [5, 5] [5, 5] [1]) 7) [0, 4] = 4 := by
  constructor
  · intro fuel
    show ffLoop 0 6 fuel (mkGraph (preprocessedConnections [(0, 1, 1), (0, 1, 3)]
      [5, 5] [5, 5] [1]) 7) 0 = none
    cases fuel with
    | zero => rfl
    | succ n =>
      have h0 : ffStep (mkGraph (preprocessedConnections [(0, 1, 1), (0, 1, 3)]
          [5, 5] [5, 5] [1]) 7) 0 6 = some (some (parallelRound1', 1)) := by decide
      simp only [ffLoop, h0]
      exact ffLoop_none_of_fix 0 6 parallelRound1' 0 (by decide) n (0 + 1)
  · decide

set_option maxHeartbeats 4000000 in
/-- C7: `maxThroughput` returns the values stated in the spec's concrete
scenarios: `1` for scenario 2 (bottlenecked by node 1's inbound limit), `10`
for scenario 4 (two parallel paths) and `8` for scenario 5 (two targets). -/
theorem scenario_values :
    maxThroughput 20 [(0, 1, 5), (1, 2, 5)] [10, 1, 10] [10, 10, 10] 0 [2] = some 1
    ∧ maxThroughput 20 [(0, 1, 5), (0, 2, 5), (1, 3, 5), (2, 3, 5)]
        [10, 10, 10, 10] [10, 10, 10, 10] 0 [3] = some 10
    ∧ maxThroughput 20 [(0, 1, 4), (0, 2, 4)] [10, 10, 10] [10, 10, 10] 0 [1, 2]
      = some 8 := by
  refine ⟨by decide, by decide, by decide⟩

/-- C8: the claim (and the spec's edge-case list) says `fordFulkerson(s, s)`
returns `0` immediately.  The code does not: with `source == sink` the BFS pops
the source and returns `True` at once, the backtrack loop body never runs, so
`getAugmentingPath` returns the degenerate path `[s]` with the sentinel
bottleneck `-1`; the round adds `-1` to the flow, changes no capacity, and the
`while` loop repeats forever.  Shown here on the one-vertex graph with no
edges: no fuel makes the call return. -/
theorem source_eq_sink_diverges :
    ∀ fuel, fordFulkerson fuel (mkGraph [] 1) 0 0 = none := by
  intro fuel
  exact ffLoop_none_of_fix 0 0 (mkGraph [] 1) (-1) (by decide) fuel 0

/-- C9: the claim says `origin ∈ targets` is a permitted input on which
`maxThroughput` still terminates.  The code diverges instead whenever
`maxIn[origin] > 0`: the BFS immediately discovers the super-target through
the direct edge `origin → 3N`, the resulting two-vertex augmenting path has
positive bottleneck `maxIn[origin]`, but the augmentation loop
`range(1, len(path)-1)` is empty for a length-2 path, so no capacity is ever
updated and the identical round repeats forever while `flow` grows.  Shown on
`connections=[]`, `maxIn=maxOut=[5]`, `origin=0`, `targets=[0]`. -/
theorem origin_in_targets_diverges :
    ∀ fuel, maxThroughput fuel [] [5] [5] 0 [0] = none := by
  intro fuel
  show ffLoop 0 3 fuel (mkGraph (preprocessedConnections [] [5] [5] [0]) 4) 0 = none
  exact ffLoop_none_of_fix 0 3 (mkGraph (preprocessedConnections [] [5] [5] [0]) 4) 5
    (by decide) fuel 0

/-! ## C3: the transformed edge list

`specTransformedEdges` is the edge list exactly as the claim describes it
(grouped per node, then per channel, then per target, each forward edge
followed by its zero-capacity reverse edge); the theorem shows the list the
code builds is a permutation of it, that the graph has `3N + 1` vertex ids
and that the flow computation runs from `origin` to `3N`. -/

/-- The transformed edge list as described by the specification: for every
node `i` the edge `(i+N) → i` with capacity `maxIn[i]` and the edge
`i → (i+2N)` with capacity `maxOut[i]`; for every channel `(a,b,t)` the edge
`(a+2N) → (b+N)` with capacity `t`; for every target `t` the edge `t → 3N`
with capacity `maxIn[t]` — each together with a zero-capacity reverse edge. -/
def specTransformedEdges (connections : List (Nat × Nat × Int))
    (maxIn maxOut : List Int) (targets : List Nat) : List (Nat × Nat × Int) :=
  let N := maxIn.length
  ((List.range N).map fun i =>
      [(i + N, i, maxIn.getD i 0), (i, i + N, 0),
       (i, i + 2 * N, maxOut.getD i 0), (i + 2 * N, i, 0)]).flatten
  ++ (connections.map fun c =>
      [(c.1 + 2 * N, c.2.1 + N, c.2.2), (c.2.1 + N, c.1 + 2 * N, 0)]).flatten
  ++ (targets.map fun t => [(t, 3 * N, maxIn.getD t 0), (3 * N, t, 0)]).flatten

theorem range_foldl_append {α : Type} (f : Nat → List α) :
    ∀ (n : Nat) (init : List α),
    (List.range n).foldl (fun acc i => acc ++ f i) init
      = init ++ ((List.range n).map f).flatten := by
  intro n
  induction n with
  | zero => intro init; simp
  | succ m ih =>
    intro init
    rw [List.range_succ, List.foldl_append, ih]
    simp [List.foldl]

theorem map_range_length_getD {α β : Type} (g : α → β) (d : α) :
    ∀ (l : List α),
    (List.range l.length).map (fun i => g (l.getD i d)) = l.map g := by
  intro l
  induction l with
  | nil => simp
  | cons a l ih =>
    rw [List.length_cons, List.range_succ_eq_map, List.map_cons, List.map_map]
    have h2 : ((fun i => g ((a :: l).getD i d)) ∘ Nat.succ) = (fun i => g (l.getD i d)) := by
      funext i
      simp [Function.comp, List.getD_cons_succ]
    rw [h2, ih]
    simp [List.getD_cons_zero]

theorem perm_middle_swap {α : Type} (s t p q : List α) :
    List.Perm ((s ++ t) ++ (p ++ q)) ((s ++ p) ++ (t ++ q)) := by
  have e1 : (s ++ t) ++ (p ++ q) = s ++ ((t ++ p) ++ q) := by simp [List.append_assoc]
  have e2 : (s ++ p) ++ (t ++ q) = s ++ ((p ++ t) ++ q) := by simp [List.append_assoc]
  rw [e1, e2]
  exact List.Perm.append_left s (List.Perm.append_right q List.perm_append_comm)

theorem flatten_map_pair_merge {α : Type} (f g : Nat → List α) :
    ∀ n : Nat,
    List.Perm (((List.range n).map f).flatten ++ ((List.range n).map g).flatten)
      (((List.range n).map fun i => f i ++ g i).flatten) := by
  intro n
  induction n with
  | zero => simp
  | succ m ih =>
    rw [List.range_succ]
    simp only [List.map_append, List.flatten_append, List.map_cons, List.map_nil,
      List.flatten_cons, List.flatten_nil, List.append_nil]
    exact (perm_middle_swap (((List.range m).map f).flatten) (f m)
        (((List.range m).map g).flatten) (g m)).trans
      (List.Perm.append ih (List.Perm.refl (f m ++ g m)))

theorem mkGraph_length (connections : List (Nat × Nat × Int)) (total_vertices : Nat) :
    (mkGraph connections total_vertices).length = total_vertices := by
  show (connections.foldl (fun vs c => addEdge vs ⟨c.1, c.2.1, c.2.2⟩)
      (List.replicate total_vertices [])).length = total_vertices
  have h : ∀ (cs : List (Nat × Nat × Int)) (vs : Graph),
      (cs.foldl (fun vs c => addEdge vs ⟨c.1, c.2.1, c.2.2⟩) vs).length = vs.length := by
    intro cs
    induction cs with
    | nil => intro vs; rfl
    | cons c cs ih => intro vs; rw [List.foldl_cons, ih]; simp [addEdge]
  rw [h]; simp

theorem preprocessed_eq_segments (connections : List (Nat × Nat × Int))
    (maxIn maxOut : List Int) (targets : List Nat) :
    preprocessedConnections connections maxIn maxOut targets
      = ((List.range maxIn.length).map fun i =>
            [(i + maxIn.length, i, maxIn.getD i 0), (i, i + maxIn.length, 0)]).flatten
        ++ ((List.range maxOut.length).map fun i =>
            [(i, i + maxIn.length * 2, maxOut.getD i 0), (i + maxIn.length * 2, i, 0)]).flatten
        ++ (connections.map fun c =>
            [(c.1 + maxIn.length * 2, c.2.1 + maxIn.length, c.2.2),
             (c.2.1 + maxIn.length, c.1 + maxIn.length * 2, 0)]).flatten
        ++ (targets.map fun t =>
            [(t, maxIn.length * 3, maxIn.getD t 0), (maxIn.length * 3, t, 0)]).flatten := by
  show ((List.range targets.length).foldl _ _) = _
  rw [range_foldl_append (fun t =>
    [(targets.getD t 0, maxIn.length * 3, maxIn.getD (targets.getD t 0) 0),
     (maxIn.length * 3, targets.getD t 0, 0)])]
  rw [range_foldl_append (fun i =>
    [((connections.getD i (0, 0, 0)).1 + maxIn.length * 2,
      (connections.getD i (0, 0, 0)).2.1 + maxIn.length, (connections.getD i (0, 0, 0)).2.2),
     ((connections.getD i (0, 0, 0)).2.1 + maxIn.length,
      (connections.getD i (0, 0, 0)).1 + maxIn.length * 2, 0)])]
  rw [range_foldl_append (fun i =>
    [(i, i + maxIn.length * 2, maxOut.getD i 0), (i + maxIn.length * 2, i, 0)])]
  rw [range_foldl_append (fun i =>
    [(i + maxIn.length, i, maxIn.getD i 0), (i, i + maxIn.length, 0)])]
  rw [map_range_length_getD (fun c =>
    [(c.1 + maxIn.length * 2, c.2.1 + maxIn.length, c.2.2),
     (c.2.1 + maxIn.length, c.1 + maxIn.length * 2, 0)]) (0, 0, 0) connections]
  rw [map_range_length_getD (fun t =>
    [(t, maxIn.length * 3, maxIn.getD t 0), (maxIn.length * 3, t, 0)]) 0 targets]
  simp [List.append_assoc]

/-- C3: for every input with `N = len(maxIn)` nodes (and `maxOut` of the same
length, as the claim's per-node description presumes), the connection list the
code builds is exactly the multiset of edges the claim describes — every
forward edge paired with a zero-capacity reverse edge — the graph is built on
exactly `3N + 1` vertex ids, and the flow computation is
`fordFulkerson(origin, 3N)` on that graph. -/
theorem transformed_graph_as_specified (fuel : Nat) (connections : List (Nat × Nat × Int))
    (maxIn maxOut : List Int) (origin : Nat) (targets : List Nat)
    (hlen : maxOut.length = maxIn.length) :
    List.Perm (preprocessedConnections connections maxIn maxOut targets)
      (specTransformedEdges connections maxIn maxOut targets)
    ∧ (mkGraph (preprocessedConnections connections maxIn maxOut targets)
        (maxIn.length * 3 + 1)).length = maxIn.length * 3 + 1
    ∧ maxThroughput fuel connections maxIn maxOut origin targets
      = fordFulkerson fuel
          (mkGraph (preprocessedConnections connections maxIn maxOut targets)
            (maxIn.length * 3 + 1)) origin (maxIn.length * 3) := by
  refine ⟨?_, mkGraph_length _ _, rfl⟩
  rw [preprocessed_eq_segments, hlen]
  show List.Perm _ (specTransformedEdges connections maxIn maxOut targets)
  unfold specTransformedEdges
  simp only [show (2 : Nat) * maxIn.length = maxIn.length * 2 from Nat.mul_comm 2 maxIn.length,
    show (3 : Nat) * maxIn.length = maxIn.length * 3 from Nat.mul_comm 3 maxIn.length]
  refine List.Perm.append (List.Perm.append ?_ (List.Perm.refl _)) (List.Perm.refl _)
  have hfun : (fun i =>
      ([(i + maxIn.length, i, maxIn.getD i 0), (i, i + maxIn.length, 0)] :
        List (Nat × Nat × Int))
      ++ [(i, i + maxIn.length * 2, maxOut.getD i 0), (i + maxIn.length * 2, i, 0)])
      = (fun i =>
      ([(i + maxIn.length, i, maxIn.getD i 0), (i, i + maxIn.length, 0),
        (i, i + maxIn.length * 2, maxOut.getD i 0), (i + maxIn.length * 2, i, 0)] :
        List (Nat × Nat × Int))) := by
    funext i
    rfl
  have h := flatten_map_pair_merge
    (fun i => ([(i + maxIn.length, i, maxIn.getD i 0), (i, i + maxIn.length, 0)] :
      List (Nat × Nat × Int)))
    (fun i => [(i, i + maxIn.length * 2, maxOut.getD i 0), (i + maxIn.length * 2, i, 0)])
    maxIn.length
  rw [hfun] at h
  exact h

/-- Witness for `transformed_graph_as_specified` at the spec's first scenario
(`N = 2`, one channel `(0,1,10)`). -/
theorem transformed_graph_as_specified_witness :
    (([20, 20] : List Int).length = ([20, 20] : List Int).length)
    ∧ (List.Perm (preprocessedConnections [(0, 1, 10)] [20, 20] [20, 20] [1])
        (specTransformedEdges [(0, 1, 10)] [20, 20] [20, 20] [1])
      ∧ (mkGraph (preprocessedConnections [(0, 1, 10)] [20, 20] [20, 20] [1])
          (([20, 20] : List Int).length * 3 + 1)).length
        = ([20, 20] : List Int).length * 3 + 1
      ∧ maxThroughput 20 [(0, 1, 10)] [20, 20] [20, 20] 0 [1]
        = fordFulkerson 20
            (mkGraph (preprocessedConnections [(0, 1, 10)] [20, 20] [20, 20] [1])
              (([20, 20] : List Int).length * 3 + 1)) 0 (([20, 20] : List Int).length * 3)) :=
  ⟨rfl, transformed_graph_as_specified 20 [(0, 1, 10)] [20, 20] [20, 20] 0 [1] rfl⟩

/-! ## C4: which pairs the augmentation step updates

The spec says the augmentation updates *every* consecutive pair of the path,
including the final pair ending at the sink.  The loop index of the code runs
over `range(1, len(path)-1)`, which leaves the final pair out: the edge into
the sink is never touched.  A concrete round shows it, and a general theorem
characterises the updates as a fold over all consecutive pairs *except the
last one*. -/

/-- The capacities of the `u → v` edges of `g`, in adjacency order. -/
def matchWeights (g : Graph) (u v : Nat) : List Int :=
  ((g.getD u []).filter (fun e => e.v = v)).map (fun e => e.w)

/-- The residual network of the spec's first scenario
(`connections=[(0,1,10)]`, `maxIn=maxOut=[20,20]`, `origin=0`, `targets=[1]`). -/
def scenario1Graph : Graph :=
  mkGraph (preprocessedConnections [(0, 1, 10)] [20, 20] [20, 20] [1]) 7

/-- The predecessor pointers the first BFS round leaves on `scenario1Graph`. -/
def scenario1Prev : List (Option Nat) :=
  [none, some 3, none, some 4, some 0, some 1, some 1]

/-- `scenario1Graph` after its first augmentation round. -/
def scenario1Round1 : Graph :=
  [[⟨0, 2, 0⟩, ⟨0, 4, 10⟩],
   [⟨1, 3, 10⟩, ⟨1, 5, 20⟩, ⟨1, 6, 20⟩],
   [⟨2, 0, 20⟩],
   [⟨3, 1, 10⟩, ⟨3, 4, 10⟩],
   [⟨4, 0, 10⟩, ⟨4, 3, 0⟩],
   [⟨5, 1, 0⟩],
   [⟨6, 1, 0⟩]]

set_option maxHeartbeats 1000000 in
/-- C4 counterexample: on the spec's first scenario the first augmenting path
is `[0, 4, 3, 1, 6]` with bottleneck `10`, yet after the augmentation the
forward edge of the final pair `(1, 6)` still has capacity `20`, not
`20 - 10`: the augmentation does *not* update the final pair ending at the
sink, contrary to the claim. -/
theorem final_pair_not_updated :
    hasAugmentingPath scenario1Graph 0 6 = some (true, scenario1Prev)
    ∧ getAugmentingPath scenario1Graph scenario1Prev 0 6 = some ([0, 4, 3, 1, 6], 10)
    ∧ augment scenario1Graph scenario1Prev [0, 4, 3, 1, 6] 10 = scenario1Round1
    ∧ matchWeights scenario1Graph 1 6 = [20]
    ∧ matchWeights scenario1Round1 1 6 = [20]
    ∧ ((20 : Int) ≠ 20 - 10) := by
  refine ⟨by decide, by decide, by decide, by decide, by decide, by decide⟩

/-- The augmentation loop as a fold of `updatePair` over the consecutive pairs
of the path except the last one (shared between the C4 and C6 developments). -/
theorem augment_eq_pairFold (g : Graph) (prev : List (Option Nat))
    (path : List Nat) (b : Int)
    (hcoh : ∀ i, i + 1 < path.length →
      prev.getD (path.getD (i + 1) 0) none = some (path.getD i 0)) :
    augment g prev path b
      = ((path.zip path.tail).dropLast).foldl (fun h uv => updatePair b h uv.1 uv.2) g := by
  induction path generalizing g with
  | nil => rfl
  | cons p rest ih =>
    cases rest with
    | nil => rfl
    | cons q rest' =>
      cases rest' with
      | nil => rfl
      | cons r rest'' =>
        have hq : prev.getD q none = some p := by
          have h0 := hcoh 0 (by simp)
          simpa using h0
        have harg : augmentStep b prev g q = updatePair b g p q := by
          unfold augmentStep
          rw [hq]
        have step1 : augment g prev (p :: q :: r :: rest'') b
            = augment (updatePair b g p q) prev (q :: r :: rest'') b := by
          show ((q :: r :: rest'').dropLast).foldl (augmentStep b prev) g
            = ((r :: rest'').dropLast).foldl (augmentStep b prev) (updatePair b g p q)
          rw [show (q :: r :: rest'').dropLast = q :: (r :: rest'').dropLast from rfl,
            List.foldl_cons, harg]
        have hcoh' : ∀ i, i + 1 < (q :: r :: rest'').length →
            prev.getD ((q :: r :: rest'').getD (i + 1) 0) none
              = some ((q :: r :: rest'').getD i 0) := by
          intro i hi
          have h1 := hcoh (i + 1) (by simpa using Nat.succ_lt_succ hi)
          simpa using h1
        rw [step1, ih (updatePair b g p q) hcoh']
        rfl

/-- C4 (amended): the augmentation updates exactly the consecutive pairs of
the path *except the final pair ending at the sink*.  The hypothesis states
that the path follows the predecessor pointers (which is how
`getAugmentingPath` builds it), so that the `u = v.previous` lookup of the
code recovers the previous path element. -/
theorem augment_skips_last_pair (g : Graph) (prev : List (Option Nat))
    (path : List Nat) (b : Int)
    (hcoh : ∀ i, i + 1 < path.length →
      prev.getD (path.getD (i + 1) 0) none = some (path.getD i 0)) :
    augment g prev path b
      = ((path.zip path.tail).dropLast).foldl (fun h uv => updatePair b h uv.1 uv.2) g :=
  augment_eq_pairFold g prev path b hcoh

/-- Witness for `augment_skips_last_pair` on the first scenario's round. -/
theorem augment_skips_last_pair_witness :
    (∀ i, i + 1 < ([0, 4, 3, 1, 6] : List Nat).length →
      scenario1Prev.getD (([0, 4, 3, 1, 6] : List Nat).getD (i + 1) 0) none
        = some (([0, 4, 3, 1, 6] : List Nat).getD i 0))
    ∧ augment scenario1Graph scenario1Prev [0, 4, 3, 1, 6] 10
      = ((([0, 4, 3, 1, 6] : List Nat).zip ([0, 4, 3, 1, 6] : List Nat).tail).dropLast).foldl
          (fun h uv => updatePair 10 h uv.1 uv.2) scenario1Graph := by
  have h : ∀ i, i + 1 < ([0, 4, 3, 1, 6] : List Nat).length →
      scenario1Prev.getD (([0, 4, 3, 1, 6] : List Nat).getD (i + 1) 0) none
        = some (([0, 4, 3, 1, 6] : List Nat).getD i 0) := by
    intro i hi
    have h4 : i < 4 := by
      simp only [List.length_cons, List.length_nil] at hi
      omega
    interval_cases i <;> decide
  exact ⟨h, augment_skips_last_pair scenario1Graph scenario1Prev [0, 4, 3, 1, 6] 10 h⟩

/-! ## The predecessor walk

`getAugmentingPath` interleaves three things: following the predecessor
pointers from the sink back to the source, accumulating the path, and folding
the bottleneck scan.  To reason about it we separate the walk itself
(`prevWalk`), characterise the loop in terms of it, and prove that a
terminating walk visits pairwise-distinct vertices. -/

/-- The predecessor walk from `cur` to `source`: the list
`[cur, prev cur, prev (prev cur), …, source]`, or `none` when a pointer is
missing or the fuel runs out (a cyclic chain). -/
def prevWalk (prev : List (Option Nat)) (source : Nat) : Nat → Nat → Option (List Nat)
  | fuel, cur =>
    if cur = source then some [cur]
    else
      match fuel with
      | 0 => none
      | fuel + 1 =>
        match prev.getD cur none with
        | none => none
        | some nxt => (prevWalk prev source fuel nxt).map (fun w => cur :: w)

/-- The bottleneck accumulation along a walk: for every consecutive pair
`(cur, nxt)` of the walk, fold `scanMin` over `nxt`'s adjacency list looking
for edges into `cur` (exactly the scan of `getAugmentingPath`). -/
def walkScan (g : Graph) : List Nat → Int → Int
  | [], s => s
  | [_], s => s
  | cur :: nxt :: rest, s => walkScan g (nxt :: rest) (scanMin (g.getD nxt []) cur s)

theorem prevWalk_source (prev : List (Option Nat)) (source fuel : Nat) :
    prevWalk prev source fuel source = some [source] := by
  unfold prevWalk
  simp

theorem prevWalk_zero (prev : List (Option Nat)) (source cur : Nat) (hc : cur ≠ source) :
    prevWalk prev source 0 cur = none := by
  unfold prevWalk
  rw [if_neg hc]

theorem prevWalk_succ (prev : List (Option Nat)) (source f cur : Nat) (hc : cur ≠ source) :
    prevWalk prev source (f + 1) cur
      = match prev.getD cur none with
        | none => none
        | some nxt => (prevWalk prev source f nxt).map (fun w => cur :: w) := by
  conv_lhs => unfold prevWalk
  rw [if_neg hc]

theorem prevWalk_shape (prev : List (Option Nat)) (source : Nat) (fuel cur : Nat)
    (w : List Nat) (h : prevWalk prev source fuel cur = some w) :
    ∃ w', w = cur :: w' := by
  by_cases hc : cur = source
  · subst hc
    rw [prevWalk_source] at h
    exact ⟨[], (Option.some_inj.mp h).symm⟩
  · cases fuel with
    | zero =>
      rw [prevWalk_zero prev source cur hc] at h
      exact absurd h (by simp)
    | succ f =>
      rw [prevWalk_succ prev source f cur hc] at h
      cases hp : prev.getD cur none with
      | none =>
        rw [hp] at h
        exact absurd h (by simp)
      | some nxt =>
        rw [hp] at h
        obtain ⟨w', hw', rfl⟩ := Option.map_eq_some'.mp h
        exact ⟨w', rfl⟩

theorem gapLoop_source (g : Graph) (prev : List (Option Nat)) (source fuel : Nat)
    (path : List Nat) (smallest : Int) :
    getAugmentingPathLoop g prev source fuel source path smallest
      = some ((path ++ [source]).reverse, smallest) := by
  unfold getAugmentingPathLoop
  simp

theorem gapLoop_zero (g : Graph) (prev : List (Option Nat)) (source cur : Nat)
    (path : List Nat) (smallest : Int) (hc : cur ≠ source) :
    getAugmentingPathLoop g prev source 0 cur path smallest = none := by
  unfold getAugmentingPathLoop
  rw [if_neg hc]

theorem gapLoop_succ (g : Graph) (prev : List (Option Nat)) (source f cur : Nat)
    (path : List Nat) (smallest : Int) (hc : cur ≠ source) :
    getAugmentingPathLoop g prev source (f + 1) cur path smallest
      = match prev.getD cur none with
        | none => none
        | some nxt =>
          getAugmentingPathLoop g prev source f nxt (path ++ [cur])
            (scanMin (g.getD nxt []) cur smallest) := by
  conv_lhs => unfold getAugmentingPathLoop
  rw [if_neg hc]

theorem getAugmentingPathLoop_eq_walk (g : Graph) (prev : List (Option Nat)) (source : Nat) :
    ∀ (fuel cur : Nat) (path : List Nat) (smallest : Int),
    getAugmentingPathLoop g prev source fuel cur path smallest
      = match prevWalk prev source fuel cur with
        | none => none
        | some w => some ((path ++ w).reverse, walkScan g w smallest) := by
  intro fuel
  induction fuel with
  | zero =>
    intro cur path smallest
    by_cases hc : cur = source
    · subst hc
      rw [gapLoop_source, prevWalk_source]
      rfl
    · rw [gapLoop_zero g prev source cur path smallest hc, prevWalk_zero prev source cur hc]
  | succ f ih =>
    intro cur path smallest
    by_cases hc : cur = source
    · subst hc
      rw [gapLoop_source, prevWalk_source]
      rfl
    · rw [gapLoop_succ g prev source f cur path smallest hc, prevWalk_succ prev source f cur hc]
      cases hp : prev.getD cur none with
      | none => rfl
      | some nxt =>
        show getAugmentingPathLoop g prev source f nxt (path ++ [cur])
            (scanMin (g.getD nxt []) cur smallest)
          = match (prevWalk prev source f nxt).map (fun w => cur :: w) with
            | none => none
            | some w => some ((path ++ w).reverse, walkScan g w smallest)
        rw [ih nxt (path ++ [cur]) (scanMin (g.getD nxt []) cur smallest)]
        cases hw : prevWalk prev source f nxt with
        | none => rfl
        | some w =>
          obtain ⟨w', rfl⟩ := prevWalk_shape prev source f nxt w hw
          show some (((path ++ [cur]) ++ (nxt :: w')).reverse,
              walkScan g (nxt :: w') (scanMin (g.getD nxt []) cur smallest))
            = some ((path ++ (cur :: nxt :: w')).reverse, walkScan g (cur :: nxt :: w') smallest)
          rw [show (path ++ [cur]) ++ (nxt :: w') = path ++ (cur :: nxt :: w') by simp]
          rfl

theorem prevWalk_mono (prev : List (Option Nat)) (source : Nat) :
    ∀ (fuel cur : Nat) (w : List Nat), prevWalk prev source fuel cur = some w →
    prevWalk prev source (fuel + 1) cur = some w := by
  intro fuel
  induction fuel with
  | zero =>
    intro cur w h
    by_cases hc : cur = source
    · subst hc
      rw [prevWalk_source] at h
      rw [prevWalk_source]
      exact h
    · rw [prevWalk_zero prev source cur hc] at h
      exact absurd h (by simp)
  | succ f ih =>
    intro cur w h
    by_cases hc : cur = source
    · subst hc
      rw [prevWalk_source] at h
      rw [prevWalk_source]
      exact h
    · rw [prevWalk_succ prev source f cur hc] at h
      rw [prevWalk_succ prev source (f + 1) cur hc]
      cases hp : prev.getD cur none with
      | none =>
        rw [hp] at h
        exact absurd h (by simp)
      | some nxt =>
        rw [hp] at h
        obtain ⟨w1, hw1, hmap⟩ := Option.map_eq_some'.mp h
        show Option.map (fun w => cur :: w) (prevWalk prev source (f + 1) nxt) = some w
        rw [ih nxt w1 hw1]
        simpa using hmap

theorem prevWalk_mono_le (prev : List (Option Nat)) (source : Nat) (fuel fuel' cur : Nat)
    (w : List Nat) (hle : fuel ≤ fuel') (h : prevWalk prev source fuel cur = some w) :
    prevWalk prev source fuel' cur = some w := by
  induction fuel', hle using Nat.le_induction with
  | base => exact h
  | succ n hn ih => exact prevWalk_mono prev source n cur w ih

theorem prevWalk_mem (prev : List (Option Nat)) (source : Nat) :
    ∀ (fuel cur : Nat) (w : List Nat), prevWalk prev source fuel cur = some w →
    ∀ x ∈ w, ∃ f' w', f' ≤ fuel ∧ prevWalk prev source f' x = some w'
      ∧ w'.length ≤ w.length := by
  intro fuel
  induction fuel with
  | zero =>
    intro cur w h x hx
    by_cases hc : cur = source
    · rw [hc, prevWalk_source] at h
      have hw : w = [source] := (Option.some_inj.mp h).symm
      subst hw
      have hxs : x = source := by simpa using hx
      refine ⟨0, [source], Nat.le_refl 0, ?_, by simp⟩
      rw [hxs, prevWalk_source]
    · rw [prevWalk_zero prev source cur hc] at h
      exact absurd h (by simp)
  | succ f ih =>
    intro cur w h x hx
    by_cases hc : cur = source
    · rw [hc, prevWalk_source] at h
      have hw : w = [source] := (Option.some_inj.mp h).symm
      subst hw
      have hxs : x = source := by simpa using hx
      refine ⟨0, [source], Nat.zero_le _, ?_, by simp⟩
      rw [hxs, prevWalk_source]
    · rw [prevWalk_succ prev source f cur hc] at h
      cases hp : prev.getD cur none with
      | none =>
        rw [hp] at h
        exact absurd h (by simp)
      | some nxt =>
        rw [hp] at h
        obtain ⟨w1, hw1, hmap⟩ := Option.map_eq_some'.mp h
        rcases List.mem_cons.mp (hmap ▸ hx) with hx1 | hx2
        · refine ⟨f + 1, w, Nat.le_refl _, ?_, Nat.le_refl _⟩
          rw [hx1, prevWalk_succ prev source f cur hc, hp]
          show Option.map (fun l => cur :: l) (prevWalk prev source f nxt) = some w
          rw [hw1]
          simpa using hmap
        · obtain ⟨f', w', hf', hps, hlen⟩ := ih nxt w1 hw1 x hx2
          refine ⟨f', w', Nat.le_trans hf' (Nat.le_succ f), hps, ?_⟩
          have hlw : w.length = w1.length + 1 := by rw [← hmap]; simp
          omega

theorem prevWalk_nodup (prev : List (Option Nat)) (source : Nat) :
    ∀ (fuel cur : Nat) (w : List Nat), prevWalk prev source fuel cur = some w →
    w.Nodup := by
  intro fuel
  induction fuel with
  | zero =>
    intro cur w h
    by_cases hc : cur = source
    · rw [hc, prevWalk_source] at h
      have hw : w = [source] := (Option.some_inj.mp h).symm
      subst hw
      simp
    · rw [prevWalk_zero prev source cur hc] at h
      exact absurd h (by simp)
  | succ f ih =>
    intro cur w h
    by_cases hc : cur = source
    · rw [hc, prevWalk_source] at h
      have hw : w = [source] := (Option.some_inj.mp h).symm
      subst hw
      simp
    · rw [prevWalk_succ prev source f cur hc] at h
      cases hp : prev.getD cur none with
      | none =>
        rw [hp] at h
        exact absurd h (by simp)
      | some nxt =>
        rw [hp] at h
        obtain ⟨w1, hw1, hmap⟩ := Option.map_eq_some'.mp h
        have hnd1 : w1.Nodup := ih nxt w1 hw1
        have hnotmem : cur ∉ w1 := by
          intro hmem
          obtain ⟨f', w', hf', hps, hlen⟩ := prevWalk_mem prev source f nxt w1 hw1 cur hmem
          have hcur1 : prevWalk prev source (f + 1) cur = some (cur :: w1) := by
            rw [prevWalk_succ prev source f cur hc, hp]
            show Option.map (fun l => cur :: l) (prevWalk prev source f nxt)
              = some (cur :: w1)
            rw [hw1]
            rfl
          have hcur2 : prevWalk prev source (f + 1) cur = some w' :=
            prevWalk_mono_le prev source f' (f + 1) cur w'
              (Nat.le_trans hf' (Nat.le_succ f)) hps
          have heq : cur :: w1 = w' := Option.some_inj.mp (hcur1.symm.trans hcur2)
          rw [← heq] at hlen
          simp at hlen
        rw [← hmap]
        exact List.nodup_cons.mpr ⟨hnotmem, hnd1⟩

theorem prevWalk_chain (prev : List (Option Nat)) (source : Nat) :
    ∀ (fuel cur : Nat) (w : List Nat), prevWalk prev source fuel cur = some w →
    ∀ i, i + 1 < w.length → prev.getD (w.getD i 0) none = some (w.getD (i + 1) 0) := by
  intro fuel
  induction fuel with
  | zero =>
    intro cur w h i hi
    by_cases hc : cur = source
    · rw [hc, prevWalk_source] at h
      have hw : w = [source] := (Option.some_inj.mp h).symm
      subst hw
      simp at hi
    · rw [prevWalk_zero prev source cur hc] at h
      exact absurd h (by simp)
  | succ f ih =>
    intro cur w h i hi
    by_cases hc : cur = source
    · rw [hc, prevWalk_source] at h
      have hw : w = [source] := (Option.some_inj.mp h).symm
      subst hw
      simp at hi
    · rw [prevWalk_succ prev source f cur hc] at h
      cases hp : prev.getD cur none with
      | none =>
        rw [hp] at h
        exact absurd h (by simp)
      | some nxt =>
        rw [hp] at h
        obtain ⟨w1, hw1, hmap⟩ := Option.map_eq_some'.mp h
        obtain ⟨w2, hw2⟩ := prevWalk_shape prev source f nxt w1 hw1
        rw [← hmap] at hi ⊢
        cases i with
        | zero =>
          simp only [List.getD_cons_zero, List.getD_cons_succ]
          rw [hp, hw2]
          simp
        | succ j =>
          simp only [List.getD_cons_succ]
          exact ih nxt w1 hw1 j (by simpa using hi)

theorem prevWalk_last (prev : List (Option Nat)) (source : Nat) :
    ∀ (fuel cur : Nat) (w : List Nat), prevWalk prev source fuel cur = some w →
    w.getLast? = some source := by
  intro fuel
  induction fuel with
  | zero =>
    intro cur w h
    by_cases hc : cur = source
    · rw [hc, prevWalk_source] at h
      have hw : w = [source] := (Option.some_inj.mp h).symm
      subst hw
      rfl
    · rw [prevWalk_zero prev source cur hc] at h
      exact absurd h (by simp)
  | succ f ih =>
    intro cur w h
    by_cases hc : cur = source
    · rw [hc, prevWalk_source] at h
      have hw : w = [source] := (Option.some_inj.mp h).symm
      subst hw
      rfl
    · rw [prevWalk_succ prev source f cur hc] at h
      cases hp : prev.getD cur none with
      | none =>
        rw [hp] at h
        exact absurd h (by simp)
      | some nxt =>
        rw [hp] at h
        obtain ⟨w1, hw1, hmap⟩ := Option.map_eq_some'.mp h
        obtain ⟨w2, hw2⟩ := prevWalk_shape prev source f nxt w1 hw1
        have hl1 : w1.getLast? = some source := ih nxt w1 hw1
        rw [← hmap, List.getLast?_cons, hw2] at *
        rw [hw2] at hl1
        simp only [hl1]
        rfl

/-! ## The bottleneck value

The `smallest_value` accumulator is a sentinel-min fold: `-1` until a first
matching edge is seen, then the running minimum.  We characterise it as the
minimum over all residual edges joining consecutive pairs of the path. -/

/-- One step of the `smallest_value` update of `getAugmentingPath`. -/
def minStep (s x : Int) : Int :=
  if s = -1 then x else if x < s then x else s

theorem scanMin_cons (e : Edge) (es : List Edge) (tgt : Nat) (s : Int) :
    scanMin (e :: es) tgt s = scanMin es tgt (if e.v = tgt then minStep s e.w else s) := rfl

theorem scanMin_eq_foldl (tgt : Nat) :
    ∀ (edges : List Edge) (s : Int),
    scanMin edges tgt s
      = (((edges.filter (fun e => e.v = tgt)).map (fun e => e.w)).foldl minStep s) := by
  intro edges
  induction edges with
  | nil => intro s; rfl
  | cons e es ih =>
    intro s
    rw [scanMin_cons, List.filter_cons]
    by_cases he : e.v = tgt
    · rw [if_pos he]
      simp only [he, if_true, List.map_cons, List.foldl_cons]
      exact ih (minStep s e.w)
    · rw [if_neg he]
      simp only [he, if_false]
      exact ih s

/-- The multiset of residual capacities scanned along a walk: for each
consecutive pair `(cur, nxt)` of the walk, all capacities of edges
`nxt → cur`. -/
def walkCaps (g : Graph) : List Nat → List Int
  | [] => []
  | [_] => []
  | cur :: nxt :: rest => matchWeights g nxt cur ++ walkCaps g (nxt :: rest)

theorem walkScan_eq_foldl (g : Graph) :
    ∀ (w : List Nat) (s : Int), walkScan g w s = (walkCaps g w).foldl minStep s := by
  intro w
  induction w with
  | nil => intro s; rfl
  | cons cur rest ih =>
    cases rest with
    | nil => intro s; rfl
    | cons nxt rest' =>
      intro s
      show walkScan g (nxt :: rest') (scanMin (g.getD nxt []) cur s)
        = (matchWeights g nxt cur ++ walkCaps g (nxt :: rest')).foldl minStep s
      rw [ih (scanMin (g.getD nxt []) cur s), List.foldl_append]
      congr 1
      rw [scanMin_eq_foldl]
      rfl

theorem foldl_minStep_min :
    ∀ (l : List Int) (s : Int), 0 ≤ s → (∀ x ∈ l, 0 ≤ x) →
    (l.foldl minStep s = s ∨ l.foldl minStep s ∈ l)
    ∧ l.foldl minStep s ≤ s ∧ (∀ x ∈ l, l.foldl minStep s ≤ x) := by
  intro l
  induction l with
  | nil =>
    intro s hs hl
    exact ⟨Or.inl rfl, le_refl s, by simp⟩
  | cons a t ih =>
    intro s hs hl
    have ha : 0 ≤ a := hl a (by simp)
    have hstep : minStep s a = if a < s then a else s := by
      unfold minStep
      rw [if_neg (by omega)]
    have hs' : 0 ≤ minStep s a := by
      rw [hstep]
      split <;> omega
    obtain ⟨hmem, hles, hbound⟩ := ih (minStep s a) hs' (fun x hx => hl x (by simp [hx]))
    rw [List.foldl_cons]
    have hsa_le_s : minStep s a ≤ s := by rw [hstep]; split <;> omega
    have hsa_le_a : minStep s a ≤ a := by rw [hstep]; split <;> omega
    refine ⟨?_, le_trans hles hsa_le_s, ?_⟩
    · rcases hmem with h1 | h1
      · by_cases has : a < s
        · right
          rw [h1, hstep, if_pos has]
          exact List.mem_cons_self a t
        · left
          rw [h1, hstep, if_neg has]
      · right
        exact List.mem_cons_of_mem a h1
    · intro x hx
      rcases List.mem_cons.mp hx with h1 | h1
      · rw [h1]
        exact le_trans hles hsa_le_a
      · exact hbound x h1

theorem foldl_minStep_neg1 (l : List Int) (hl : ∀ x ∈ l, 0 ≤ x) :
    (l = [] ∧ l.foldl minStep (-1) = -1)
    ∨ (l.foldl minStep (-1) ∈ l ∧ ∀ x ∈ l, l.foldl minStep (-1) ≤ x) := by
  cases l with
  | nil => exact Or.inl ⟨rfl, rfl⟩
  | cons a t =>
    right
    have hfirst : (a :: t).foldl minStep (-1) = t.foldl minStep a := by
      rw [List.foldl_cons]
      congr 1
    have ha : 0 ≤ a := hl a (by simp)
    obtain ⟨hmem, hles, hbound⟩ := foldl_minStep_min t a ha (fun x hx => hl x (by simp [hx]))
    rw [hfirst]
    constructor
    · rcases hmem with h1 | h1
      · rw [h1]; exact List.mem_cons_self a t
      · exact List.mem_cons_of_mem a h1
    · intro x hx
      rcases List.mem_cons.mp hx with h1 | h1
      · rw [h1]; exact hles
      · exact hbound x h1

theorem mem_zipTail (l : List Nat) (u v : Nat) :
    (u, v) ∈ l.zip l.tail
      ↔ ∃ i, i + 1 < l.length ∧ l.getD i 0 = u ∧ l.getD (i + 1) 0 = v := by
  induction l with
  | nil => simp
  | cons a t ih =>
    cases t with
    | nil => simp
    | cons b t' =>
      show (u, v) ∈ (a, b) :: (b :: t').zip t' ↔ _
      rw [List.mem_cons]
      constructor
      · rintro (h1 | h2)
        · have ha : a = u := congrArg Prod.fst h1.symm
          have hb : b = v := congrArg Prod.snd h1.symm
          exact ⟨0, by simp, by simpa using ha, by simpa using hb⟩
        · obtain ⟨i, hi, h1, h2⟩ := ih.mp h2
          exact ⟨i + 1, by simpa using Nat.succ_lt_succ hi, by simpa using h1,
            by simpa using h2⟩
      · rintro ⟨i, hi, h1, h2⟩
        cases i with
        | zero =>
          left
          simp only [List.getD_cons_zero] at h1
          simp only [List.getD_cons_succ, List.getD_cons_zero] at h2
          rw [← h1, ← h2]
        | succ j =>
          right
          refine ih.mpr ⟨j, by simpa using hi, ?_, ?_⟩
          · simpa using h1
          · simpa using h2

/-- The residual capacities of all edges joining consecutive pairs of a path,
in path order: for pair `(u, v)` all capacities of edges `u → v` (parallel
edges included). -/
def pathMatchCaps (g : Graph) (path : List Nat) : List Int :=
  ((path.zip path.tail).map (fun uv => matchWeights g uv.1 uv.2)).flatten

theorem pathMatchCaps_mem (g : Graph) (path : List Nat) (x : Int) :
    x ∈ pathMatchCaps g path
      ↔ ∃ i, i + 1 < path.length
          ∧ x ∈ matchWeights g (path.getD i 0) (path.getD (i + 1) 0) := by
  unfold pathMatchCaps
  rw [List.mem_flatten]
  constructor
  · rintro ⟨l, hl, hx⟩
    obtain ⟨uv, huv, rfl⟩ := List.mem_map.mp hl
    obtain ⟨i, hi, h1, h2⟩ := (mem_zipTail path uv.1 uv.2).mp (by simpa using huv)
    exact ⟨i, hi, by rw [h1, h2]; exact hx⟩
  · rintro ⟨i, hi, hx⟩
    refine ⟨matchWeights g (path.getD i 0) (path.getD (i + 1) 0), ?_, hx⟩
    exact List.mem_map.mpr ⟨(path.getD i 0, path.getD (i + 1) 0),
      (mem_zipTail _ _ _).mpr ⟨i, hi, rfl, rfl⟩, rfl⟩

theorem walkCaps_mem (g : Graph) :
    ∀ (w : List Nat) (x : Int),
    x ∈ walkCaps g w
      ↔ ∃ i, i + 1 < w.length
          ∧ x ∈ matchWeights g (w.getD (i + 1) 0) (w.getD i 0) := by
  intro w
  induction w with
  | nil => simp [walkCaps]
  | cons cur rest ih =>
    cases rest with
    | nil => simp [walkCaps]
    | cons nxt rest' =>
      intro x
      show x ∈ matchWeights g nxt cur ++ walkCaps g (nxt :: rest') ↔ _
      rw [List.mem_append, ih x]
      constructor
      · rintro (h | ⟨i, hi, hx⟩)
        · exact ⟨0, by simp, by simpa using h⟩
        · exact ⟨i + 1, by simpa using Nat.succ_lt_succ hi, by simpa using hx⟩
      · rintro ⟨i, hi, hx⟩
        cases i with
        | zero =>
          left
          simpa using hx
        | succ j =>
          right
          exact ⟨j, by simpa using hi, by simpa using hx⟩

theorem getD_reverse (l : List Nat) (i : Nat) (hi : i < l.length) :
    l.reverse.getD i 0 = l.getD (l.length - 1 - i) 0 := by
  rw [List.getD_eq_getElem l.reverse 0 (by simpa using hi),
    List.getD_eq_getElem l 0 (by omega), List.getElem_reverse]

theorem pathMatchCaps_reverse (g : Graph) (w : List Nat) (x : Int) :
    x ∈ pathMatchCaps g w.reverse ↔ x ∈ walkCaps g w := by
  rw [pathMatchCaps_mem, walkCaps_mem]
  constructor
  · rintro ⟨j, hj, hx⟩
    have hj' : j + 1 < w.length := by simpa using hj
    refine ⟨w.length - 2 - j, by omega, ?_⟩
    rw [getD_reverse w j (by omega), getD_reverse w (j + 1) (by omega)] at hx
    have e1 : w.length - 2 - j + 1 = w.length - 1 - j := by omega
    have e2 : w.length - 2 - j = w.length - 1 - (j + 1) := by omega
    rw [e1, e2]
    exact hx
  · rintro ⟨i, hi, hx⟩
    refine ⟨w.length - 2 - i, by simp; omega, ?_⟩
    rw [getD_reverse w (w.length - 2 - i) (by omega),
      getD_reverse w (w.length - 2 - i + 1) (by omega)]
    have e1 : w.length - 1 - (w.length - 2 - i) = i + 1 := by omega
    have e2 : w.length - 1 - (w.length - 2 - i + 1) = i := by omega
    rw [e1, e2]
    exact hx

/-- Every edge of `g` has non-negative capacity. -/
def Nonneg (g : Graph) : Prop :=
  ∀ l ∈ g, ∀ e ∈ l, 0 ≤ e.w

instance (g : Graph) : Decidable (Nonneg g) := by
  unfold Nonneg
  infer_instance

theorem matchWeights_nonneg (g : Graph) (hnn : Nonneg g) (u v : Nat) :
    ∀ x ∈ matchWeights g u v, 0 ≤ x := by
  intro x hx
  unfold matchWeights at hx
  obtain ⟨e, he, rfl⟩ := List.mem_map.mp hx
  have he2 : e ∈ g.getD u [] := List.mem_of_mem_filter he
  by_cases hu : u < g.length
  · have hmem : g.getD u [] ∈ g := by
      rw [List.getD_eq_getElem g [] hu]
      exact List.getElem_mem hu
    exact hnn _ hmem e he2
  · rw [List.getD_eq_default g [] (by omega)] at he2
    exact absurd he2 (by simp)

theorem walkCaps_nonneg (g : Graph) (hnn : Nonneg g) (w : List Nat) :
    ∀ x ∈ walkCaps g w, 0 ≤ x := by
  intro x hx
  obtain ⟨i, hi, hx2⟩ := (walkCaps_mem g w x).mp hx
  exact matchWeights_nonneg g hnn _ _ x hx2

/-- Characterisation of `getAugmentingPath` (shared between the C5 and C6
developments): endpoints of the returned path, predecessor coherence, and the
sentinel-min shape of the bottleneck. -/
theorem getAugmentingPath_spec (g : Graph) (prev : List (Option Nat))
    (source sink : Nat) (path : List Nat) (s : Int) (hnn : Nonneg g)
    (h : getAugmentingPath g prev source sink = some (path, s)) :
    path.head? = some source
    ∧ path.getLast? = some sink
    ∧ (∀ i, i + 1 < path.length →
        prev.getD (path.getD (i + 1) 0) none = some (path.getD i 0))
    ∧ ((pathMatchCaps g path = [] ∧ s = -1)
        ∨ (s ∈ pathMatchCaps g path ∧ ∀ x ∈ pathMatchCaps g path, s ≤ x)) := by
  unfold getAugmentingPath at h
  rw [getAugmentingPathLoop_eq_walk] at h
  cases hw : prevWalk prev source (g.length + 1) sink with
  | none =>
    rw [hw] at h
    exact absurd h (by simp)
  | some w =>
    rw [hw] at h
    have hpair := Option.some_inj.mp h
    have hpath : path = w.reverse := by
      have hfst := congrArg Prod.fst hpair
      simpa using hfst.symm
    have hs : s = walkScan g w (-1) := (congrArg Prod.snd hpair).symm
    obtain ⟨w', hwshape⟩ := prevWalk_shape prev source _ sink w hw
    subst hpath
    refine ⟨?_, ?_, ?_, ?_⟩
    · rw [List.head?_reverse]
      exact prevWalk_last prev source _ sink w hw
    · rw [List.getLast?_reverse, hwshape]
      rfl
    · intro i hi
      have hi' : i + 1 < w.length := by
        have hlen : w.reverse.length = w.length := by simp
        omega
      have hchain := prevWalk_chain prev source _ sink w hw (w.length - 2 - i) (by omega)
      rw [getD_reverse w (i + 1) (by omega), getD_reverse w i (by omega)]
      have e1 : w.length - 1 - (i + 1) = w.length - 2 - i := by omega
      have e2 : w.length - 1 - i = w.length - 2 - i + 1 := by omega
      rw [e1, e2]
      exact hchain
    · rw [hs, walkScan_eq_foldl]
      rcases foldl_minStep_neg1 (walkCaps g w) (walkCaps_nonneg g hnn w)
        with ⟨hemp, hval⟩ | ⟨hmem, hbnd⟩
      · left
        refine ⟨?_, hval⟩
        rw [List.eq_nil_iff_forall_not_mem]
        intro x hx
        rw [pathMatchCaps_reverse, hemp] at hx
        exact absurd hx (by simp)
      · right
        refine ⟨?_, ?_⟩
        · rw [pathMatchCaps_reverse]
          exact hmem
        · intro x hx
          exact hbnd x ((pathMatchCaps_reverse g w x).mp hx)

/-- C5 (amended): `getAugmentingPath` returns the source-to-sink path
reconstructed from the predecessor pointers, and a bottleneck equal to the
minimum residual capacity among *all* edges of the graph joining consecutive
pairs of that path — parallel edges between the same pair included, not only
the edges the BFS actually traversed (`-1` when no pair has any edge).
In particular, when every hop has a unique edge between its endpoints, the
bottleneck is the minimum of those edges' capacities. -/
theorem getAugmentingPath_characterised (g : Graph) (prev : List (Option Nat))
    (source sink : Nat) (path : List Nat) (s : Int) (hnn : Nonneg g)
    (h : getAugmentingPath g prev source sink = some (path, s)) :
    path.head? = some source
    ∧ path.getLast? = some sink
    ∧ (∀ i, i + 1 < path.length →
        prev.getD (path.getD (i + 1) 0) none = some (path.getD i 0))
    ∧ ((pathMatchCaps g path = [] ∧ s = -1)
        ∨ (s ∈ pathMatchCaps g path ∧ ∀ x ∈ pathMatchCaps g path, s ≤ x)) :=
  getAugmentingPath_spec g prev source sink path s hnn h

/-- Witness for `getAugmentingPath_characterised` on the first scenario. -/
theorem getAugmentingPath_characterised_witness :
    Nonneg scenario1Graph
    ∧ getAugmentingPath scenario1Graph scenario1Prev 0 6 = some ([0, 4, 3, 1, 6], 10)
    ∧ (([0, 4, 3, 1, 6] : List Nat).head? = some 0
      ∧ ([0, 4, 3, 1, 6] : List Nat).getLast? = some 6
      ∧ (∀ i, i + 1 < ([0, 4, 3, 1, 6] : List Nat).length →
          scenario1Prev.getD (([0, 4, 3, 1, 6] : List Nat).getD (i + 1) 0) none
            = some (([0, 4, 3, 1, 6] : List Nat).getD i 0))
      ∧ ((pathMatchCaps scenario1Graph [0, 4, 3, 1, 6] = [] ∧ (10 : Int) = -1)
          ∨ ((10 : Int) ∈ pathMatchCaps scenario1Graph [0, 4, 3, 1, 6]
            ∧ ∀ x ∈ pathMatchCaps scenario1Graph [0, 4, 3, 1, 6], (10 : Int) ≤ x))) := by
  have h1 : Nonneg scenario1Graph := by decide
  have h2 : getAugmentingPath scenario1Graph scenario1Prev 0 6
      = some ([0, 4, 3, 1, 6], 10) := by decide
  exact ⟨h1, h2, getAugmentingPath_characterised scenario1Graph scenario1Prev
    0 6 [0, 4, 3, 1, 6] 10 h1 h2⟩

/-! ## C5 counterexample: the bottleneck vs the traversed edges

To state "the edges actually on the path" precisely, the same BFS is
instrumented to also record, for every discovered vertex, the specific edge
instance it was first reached through.  On a graph with parallel edges the
bottleneck `getAugmentingPath` returns differs from the minimum capacity of
the edges the BFS traversed. -/

/-- Search state of the instrumented BFS: the predecessor entry also stores
the edge used to discover the vertex. -/
structure BfsStateE where
  discovered : List Bool
  prevE : List (Option (Nat × Edge))
  queue : List Nat
  deriving DecidableEq, Repr

/-- `relaxEdge` instrumented to record the traversed edge. -/
def relaxEdgeE (u : Nat) (st : BfsStateE) (e : Edge) : BfsStateE :=
  if st.discovered.getD e.v false = false ∧ 0 < e.w then
    { discovered := st.discovered.set e.v true
      prevE := st.prevE.set e.v (some (u, e))
      queue := st.queue ++ [e.v] }
  else st

/-- `bfsLoop` instrumented to record traversed edges. -/
def bfsLoopE (g : Graph) (sink : Nat) :
    Nat → BfsStateE → Option (Bool × List (Option (Nat × Edge)))
  | 0, _ => none
  | fuel + 1, st =>
    match st.queue with
    | [] => some (false, st.prevE)
    | u :: rest =>
      if u = sink then some (true, st.prevE)
      else bfsLoopE g sink fuel ((g.getD u []).foldl (relaxEdgeE u) { st with queue := rest })

/-- `hasAugmentingPath` instrumented to record traversed edges. -/
def hasAugmentingPathE (g : Graph) (source sink : Nat) :
    Option (Bool × List (Option (Nat × Edge))) :=
  bfsLoopE g sink (g.length + 2)
    ⟨List.replicate g.length false, List.replicate g.length none, [source]⟩

/-- The edge instances the BFS actually traversed along a path: for every
path vertex after the source, the edge recorded at its discovery. -/
def traversedEdges (prevE : List (Option (Nat × Edge))) (path : List Nat) : List Edge :=
  path.tail.filterMap (fun v => (prevE.getD v none).map Prod.snd)

/-- The sentinel-min of a list of capacities (`-1` on the empty list),
matching the accumulation of `getAugmentingPath`. -/
def sentMin (l : List Int) : Int :=
  l.foldl minStep (-1)

/-- The predecessor pointers the BFS leaves on `parallelRound1` (the residual
network of the parallel-channel input after one augmentation round). -/
def parallelRound1Prev : List (Option Nat) :=
  [some 4, some 3, none, some 4, some 0, some 1, some 1]

/-- The same predecessors with the edge instances the BFS actually traversed:
vertex `3` is reached through the *second* parallel edge `4 → 3` (capacity
`2`), the first one (capacity `0`) being saturated. -/
def parallelRound1PrevE : List (Option (Nat × Edge)) :=
  [some (4, ⟨4, 0, 1⟩),
   some (3, ⟨3, 1, 2⟩),
   none,
   some (4, ⟨4, 3, 2⟩),
   some (0, ⟨0, 4, 2⟩),
   some (1, ⟨1, 5, 3⟩),
   some (1, ⟨1, 6, 3⟩)]

set_option maxHeartbeats 1000000 in
/-- C5 counterexample: on `parallelRound1` the BFS succeeds and traverses the
edges `0→4 (2), 4→3 (2), 3→1 (2), 1→6 (3)` — their minimum residual capacity
is `2` — yet `getAugmentingPath` returns the bottleneck `0`, because its scan
takes the minimum over *all* parallel edges between consecutive path vertices
and picks up the saturated first `4→3` edge that was not on the path.  So the
bottleneck is not the minimum capacity among the edges actually on the path. -/
theorem bottleneck_not_min_of_traversed :
    hasAugmentingPath parallelRound1 0 6 = some (true, parallelRound1Prev)
    ∧ hasAugmentingPathE parallelRound1 0 6 = some (true, parallelRound1PrevE)
    ∧ parallelRound1PrevE.map (Option.map Prod.fst) = parallelRound1Prev
    ∧ getAugmentingPath parallelRound1 parallelRound1Prev 0 6 = some ([0, 4, 3, 1, 6], 0)
    ∧ traversedEdges parallelRound1PrevE [0, 4, 3, 1, 6]
      = [⟨0, 4, 2⟩, ⟨4, 3, 2⟩, ⟨3, 1, 2⟩, ⟨1, 6, 3⟩]
    ∧ sentMin ((traversedEdges parallelRound1PrevE [0, 4, 3, 1, 6]).map (fun e => e.w)) = 2
    ∧ ((0 : Int) ≠ 2) := by
  refine ⟨by decide, by decide, by decide, by decide, by decide, by decide, by decide⟩

/-! ## C10: empty target list

With no targets the super-sink `3N` has no incoming edge, so the very first
BFS exhausts its queue without reaching the sink and `fordFulkerson` returns
the initial flow `0`.  The BFS fuel `g.length + 2` is proved sufficient: every
loop iteration pops one queue entry, and each enqueue flips one `discovered`
flag from `false` to `true`. -/

/-- Number of vertices not yet discovered. -/
def countFalse (l : List Bool) : Nat :=
  (l.filter (fun b => b = false)).length

theorem countFalse_replicate (n : Nat) : countFalse (List.replicate n false) = n := by
  induction n with
  | zero => rfl
  | succ m ih =>
    simp only [List.replicate_succ, countFalse, List.filter_cons] at ih ⊢
    simp [ih]

theorem countFalse_set (l : List Bool) :
    ∀ (i : Nat), i < l.length → l.getD i false = false →
    countFalse (l.set i true) + 1 = countFalse l := by
  induction l with
  | nil => intro i hi; simp at hi
  | cons a t ih =>
    intro i hi hf
    cases i with
    | zero =>
      simp only [List.getD_cons_zero] at hf
      subst hf
      simp [countFalse, List.filter_cons]
    | succ j =>
      simp only [List.getD_cons_succ] at hf
      have hj : j < t.length := by simp at hi; omega
      have := ih j hj hf
      cases a with
      | false => simpa [countFalse, List.set_cons_succ, List.filter_cons] using this
      | true => simpa [countFalse, List.set_cons_succ, List.filter_cons] using this

/-- The quantity that strictly decreases at every BFS iteration. -/
def bfsMeasure (st : BfsState) : Nat :=
  st.queue.length + countFalse st.discovered

theorem relaxEdge_measure (gl : Nat) (u : Nat) (st : BfsState) (e : Edge)
    (hlen : st.discovered.length = gl) (hv : e.v < gl) :
    (relaxEdge u st e).discovered.length = gl
    ∧ bfsMeasure (relaxEdge u st e) = bfsMeasure st := by
  unfold relaxEdge
  by_cases hcond : st.discovered.getD e.v false = false ∧ 0 < e.w
  · rw [if_pos hcond]
    have hv' : e.v < st.discovered.length := by omega
    have hcnt := countFalse_set st.discovered e.v hv' hcond.1
    constructor
    · simpa using hlen
    · show (st.queue ++ [e.v]).length + countFalse (st.discovered.set e.v true)
        = st.queue.length + countFalse st.discovered
      simp only [List.length_append, List.length_cons, List.length_nil]
      omega
  · rw [if_neg hcond]
    exact ⟨hlen, rfl⟩

theorem relaxFold_measure (gl : Nat) (u : Nat) :
    ∀ (edges : List Edge) (st : BfsState),
    st.discovered.length = gl → (∀ e ∈ edges, e.v < gl) →
    (edges.foldl (relaxEdge u) st).discovered.length = gl
    ∧ bfsMeasure (edges.foldl (relaxEdge u) st) = bfsMeasure st := by
  intro edges
  induction edges with
  | nil => intro st hlen _; exact ⟨hlen, rfl⟩
  | cons e es ih =>
    intro st hlen hT
    rw [List.foldl_cons]
    obtain ⟨h1, h2⟩ := relaxEdge_measure gl u st e hlen (hT e (by simp))
    obtain ⟨h3, h4⟩ := ih (relaxEdge u st e) h1 (fun x hx => hT x (by simp [hx]))
    exact ⟨h3, h4.trans h2⟩

theorem bfsLoop_total (g : Graph) (sink : Nat)
    (hT : ∀ l ∈ g, ∀ e ∈ l, e.v < g.length) :
    ∀ (fuel : Nat) (st : BfsState), st.discovered.length = g.length →
    bfsMeasure st < fuel → ∃ r, bfsLoop g sink fuel st = some r := by
  intro fuel
  induction fuel with
  | zero =>
    intro st hlen hm
    simp at hm
  | succ f ih =>
    intro st hlen hm
    show ∃ r, bfsLoop g sink (f + 1) st = some r
    unfold bfsLoop
    cases hq : st.queue with
    | nil => exact ⟨(false, st.prev), rfl⟩
    | cons u rest =>
      show ∃ r, (if u = sink then some (true, st.prev)
        else bfsLoop g sink f
          ((g.getD u []).foldl (relaxEdge u) { st with queue := rest })) = some r
      by_cases hu : u = sink
      · rw [if_pos hu]
        exact ⟨(true, st.prev), rfl⟩
      · rw [if_neg hu]
        have hT' : ∀ e ∈ g.getD u [], e.v < g.length := by
          intro e he
          by_cases hub : u < g.length
          · have hmem : g.getD u [] ∈ g := by
              rw [List.getD_eq_getElem g [] hub]
              exact List.getElem_mem hub
            exact hT _ hmem e he
          · rw [List.getD_eq_default g [] (by omega)] at he
            exact absurd he (by simp)
        obtain ⟨h1, h2⟩ := relaxFold_measure g.length u (g.getD u [])
          { st with queue := rest } hlen hT'
        refine ih ((g.getD u []).foldl (relaxEdge u) { st with queue := rest }) h1 ?_
        have : bfsMeasure { st with queue := rest } + 1 = bfsMeasure st := by
          show (rest.length + countFalse st.discovered) + 1
            = st.queue.length + countFalse st.discovered
          rw [hq]
          simp [Nat.succ_add]
        omega

theorem relaxFold_queue (u : Nat) :
    ∀ (edges : List Edge) (st : BfsState) (x : Nat),
    x ∈ (edges.foldl (relaxEdge u) st).queue →
    x ∈ st.queue ∨ ∃ e ∈ edges, x = e.v := by
  intro edges
  induction edges with
  | nil =>
    intro st x hx
    exact Or.inl hx
  | cons e es ih =>
    intro st x hx
    rw [List.foldl_cons] at hx
    rcases ih (relaxEdge u st e) x hx with h1 | ⟨e', he', hv⟩
    · unfold relaxEdge at h1
      by_cases hcond : st.discovered.getD e.v false = false ∧ 0 < e.w
      · rw [if_pos hcond] at h1
        rcases List.mem_append.mp h1 with h2 | h2
        · exact Or.inl h2
        · exact Or.inr ⟨e, by simp, by simpa using h2⟩
      · rw [if_neg hcond] at h1
        exact Or.inl h1
    · exact Or.inr ⟨e', by simp [he'], hv⟩

theorem bfsLoop_no_sink (g : Graph) (sink : Nat)
    (hT : ∀ l ∈ g, ∀ e ∈ l, e.v ≠ sink) :
    ∀ (fuel : Nat) (st : BfsState) (r : Bool × List (Option Nat)),
    (∀ x ∈ st.queue, x ≠ sink) → bfsLoop g sink fuel st = some r → r.1 = false := by
  intro fuel
  induction fuel with
  | zero =>
    intro st r hq h
    exact absurd h (by simp [bfsLoop])
  | succ f ih =>
    intro st r hq h
    unfold bfsLoop at h
    cases hqe : st.queue with
    | nil =>
      rw [hqe] at h
      have := Option.some_inj.mp h
      rw [← this]
    | cons u rest =>
      rw [hqe] at h
      replace h : (if u = sink then some (true, st.prev)
        else bfsLoop g sink f
          ((g.getD u []).foldl (relaxEdge u) { st with queue := rest })) = some r := h
      have hu : u ≠ sink := hq u (by simp [hqe])
      rw [if_neg hu] at h
      refine ih _ r ?_ h
      intro x hx
      rcases relaxFold_queue u (g.getD u []) { st with queue := rest } x hx
        with h1 | ⟨e, he, hv⟩
      · exact hq x (by simp [hqe, h1])
      · subst hv
        by_cases hub : u < g.length
        · have hmem : g.getD u [] ∈ g := by
            rw [List.getD_eq_getElem g [] hub]
            exact List.getElem_mem hub
          exact hT _ hmem e he
        · rw [List.getD_eq_default g [] (by omega)] at he
          exact absurd he (by simp)

theorem mkGraph_forall (P : Edge → Prop) (connections : List (Nat × Nat × Int))
    (total_vertices : Nat)
    (hpre : ∀ p ∈ connections, P ⟨p.1, p.2.1, p.2.2⟩) :
    ∀ l ∈ mkGraph connections total_vertices, ∀ e ∈ l, P e := by
  show ∀ l ∈ connections.foldl (fun vs c => addEdge vs ⟨c.1, c.2.1, c.2.2⟩)
    (List.replicate total_vertices []), ∀ e ∈ l, P e
  have haux : ∀ (cs : List (Nat × Nat × Int)) (vs : Graph),
      (∀ l ∈ vs, ∀ e ∈ l, P e) → (∀ p ∈ cs, P ⟨p.1, p.2.1, p.2.2⟩) →
      ∀ l ∈ cs.foldl (fun vs c => addEdge vs ⟨c.1, c.2.1, c.2.2⟩) vs, ∀ e ∈ l, P e := by
    intro cs
    induction cs with
    | nil => intro vs hvs _; exact hvs
    | cons p ps ih =>
      intro vs hvs hcs
      rw [List.foldl_cons]
      refine ih (addEdge vs ⟨p.1, p.2.1, p.2.2⟩) ?_ (fun q hq => hcs q (by simp [hq]))
      intro l hl e he
      unfold addEdge at hl
      rcases List.mem_or_eq_of_mem_set hl with h1 | h1
      · exact hvs l h1 e he
      · subst h1
        rcases List.mem_append.mp he with h2 | h2
        · by_cases hub : (⟨p.1, p.2.1, p.2.2⟩ : Edge).u < vs.length
          · have hmem : vs.getD (⟨p.1, p.2.1, p.2.2⟩ : Edge).u [] ∈ vs := by
              rw [List.getD_eq_getElem vs [] hub]
              exact List.getElem_mem hub
            exact hvs _ hmem e h2
          · rw [List.getD_eq_default vs [] (by omega)] at h2
            exact absurd h2 (by simp)
        · have he2 : e = ⟨p.1, p.2.1, p.2.2⟩ := by simpa using h2
          rw [he2]
          exact hcs p (by simp)
  refine haux connections (List.replicate total_vertices []) ?_ hpre
  intro l hl e he
  have : l = [] := List.eq_of_mem_replicate hl
  rw [this] at he
  exact absurd he (by simp)

theorem preprocessed_empty_targets_bound (c : List (Nat × Nat × Int)) (mi mo : List Int)
    (hc : ∀ x ∈ c, x.1 < mi.length ∧ x.2.1 < mi.length)
    (hlen : mo.length = mi.length) :
    ∀ p ∈ preprocessedConnections c mi mo [], p.2.1 < mi.length * 3 := by
  intro p hp
  rw [preprocessed_eq_segments] at hp
  simp only [List.map_nil, List.flatten_nil, List.append_nil] at hp
  rcases List.mem_append.mp hp with hp12 | hp3
  · rcases List.mem_append.mp hp12 with hp1 | hp2
    · obtain ⟨l, hl, hpl⟩ := List.mem_flatten.mp hp1
      obtain ⟨i, hi, rfl⟩ := List.mem_map.mp hl
      have hiN : i < mi.length := List.mem_range.mp hi
      rcases List.mem_cons.mp hpl with h | h
      · rw [h]
        show i < mi.length * 3
        omega
      · rw [List.mem_singleton.mp h]
        show i + mi.length < mi.length * 3
        omega
    · obtain ⟨l, hl, hpl⟩ := List.mem_flatten.mp hp2
      obtain ⟨i, hi, rfl⟩ := List.mem_map.mp hl
      have hiN : i < mo.length := List.mem_range.mp hi
      rcases List.mem_cons.mp hpl with h | h
      · rw [h]
        show i + mi.length * 2 < mi.length * 3
        omega
      · rw [List.mem_singleton.mp h]
        show i < mi.length * 3
        omega
  · obtain ⟨l, hl, hpl⟩ := List.mem_flatten.mp hp3
    obtain ⟨x, hx, rfl⟩ := List.mem_map.mp hl
    obtain ⟨hx1, hx2⟩ := hc x hx
    rcases List.mem_cons.mp hpl with h | h
    · rw [h]
      show x.2.1 + mi.length < mi.length * 3
      omega
    · rw [List.mem_singleton.mp h]
      show x.1 + mi.length * 2 < mi.length * 3
      omega

/-- C10: when `targets` is the empty list (the rest of the input well-formed),
the super-sink `3N` has no incoming edge, the very first BFS exhausts its
queue without reaching the sink, and `maxThroughput` returns `0` (for any
positive round fuel) instead of raising. -/
theorem empty_targets_returns_zero (fuel : Nat) (c : List (Nat × Nat × Int))
    (mi mo : List Int) (o : Nat)
    (hc : ∀ x ∈ c, x.1 < mi.length ∧ x.2.1 < mi.length)
    (hlen : mo.length = mi.length)
    (ho : o < mi.length) :
    maxThroughput (fuel + 1) c mi mo o [] = some 0 := by
  have hbound := preprocessed_empty_targets_bound c mi mo hc hlen
  have hedge : ∀ l ∈ mkGraph (preprocessedConnections c mi mo []) (mi.length * 3 + 1),
      ∀ e ∈ l, e.v < mi.length * 3 := by
    refine mkGraph_forall (fun e => e.v < mi.length * 3) _ _ ?_
    intro p hp
    exact hbound p hp
  have hlg : (mkGraph (preprocessedConnections c mi mo []) (mi.length * 3 + 1)).length
      = mi.length * 3 + 1 := mkGraph_length _ _
  have hT1 : ∀ l ∈ mkGraph (preprocessedConnections c mi mo []) (mi.length * 3 + 1),
      ∀ e ∈ l, e.v < (mkGraph (preprocessedConnections c mi mo []) (mi.length * 3 + 1)).length := by
    intro l hl e he
    rw [hlg]
    have := hedge l hl e he
    omega
  obtain ⟨r, hr⟩ := bfsLoop_total
    (mkGraph (preprocessedConnections c mi mo []) (mi.length * 3 + 1)) (mi.length * 3) hT1
    ((mkGraph (preprocessedConnections c mi mo []) (mi.length * 3 + 1)).length + 2)
    ⟨List.replicate (mkGraph (preprocessedConnections c mi mo []) (mi.length * 3 + 1)).length false,
     List.replicate (mkGraph (preprocessedConnections c mi mo []) (mi.length * 3 + 1)).length none,
     [o]⟩
    (by simp) (by simp [bfsMeasure, countFalse_replicate]; omega)
  have hfalse : r.1 = false := by
    refine bfsLoop_no_sink _ (mi.length * 3) ?_ _ _ r ?_ hr
    · intro l hl e he
      have := hedge l hl e he
      omega
    · intro x hx
      have hxo : x = o := by simpa using hx
      rw [hxo]
      omega
  obtain ⟨b, prev⟩ := r
  simp only at hfalse
  subst hfalse
  have hr2 : hasAugmentingPath (mkGraph (preprocessedConnections c mi mo [])
      (mi.length * 3 + 1)) o (mi.length * 3) = some (false, prev) := hr
  have hstep : ffStep (mkGraph (preprocessedConnections c mi mo []) (mi.length * 3 + 1))
      o (mi.length * 3) = some none := by
    unfold ffStep
    rw [hr2]
  show ffLoop o (mi.length * 3) (fuel + 1)
    (mkGraph (preprocessedConnections c mi mo []) (mi.length * 3 + 1)) 0 = some 0
  have hloop : ffLoop o (mi.length * 3) (fuel + 1)
      (mkGraph (preprocessedConnections c mi mo []) (mi.length * 3 + 1)) 0
      = match ffStep (mkGraph (preprocessedConnections c mi mo []) (mi.length * 3 + 1))
          o (mi.length * 3) with
        | none => none
        | some none => some 0
        | some (some (g', smallest)) =>
          ffLoop o (mi.length * 3) fuel g' (0 + smallest) := rfl
  rw [hloop, hstep]

/-- Witness for `empty_targets_returns_zero`. -/
theorem empty_targets_returns_zero_witness :
    (∀ x ∈ [((0 : Nat), (1 : Nat), (3 : Int))],
      x.1 < ([2, 2] : List Int).length ∧ x.2.1 < ([2, 2] : List Int).length)
    ∧ (([2, 2] : List Int).length = ([2, 2] : List Int).length)
    ∧ 0 < ([2, 2] : List Int).length
    ∧ maxThroughput 1 [(0, 1, 3)] [2, 2] [2, 2] 0 [] = some 0 := by
  have h1 : ∀ x ∈ [((0 : Nat), (1 : Nat), (3 : Int))],
      x.1 < ([2, 2] : List Int).length ∧ x.2.1 < ([2, 2] : List Int).length := by decide
  exact ⟨h1, rfl, by decide,
    empty_targets_returns_zero 0 [(0, 1, 3)] [2, 2] [2, 2] 0 h1 rfl (by decide)⟩

/-! ## C6: invariants of the residual network

Per augmentation round, every capacity stays non-negative and, for every
forward/backward pair inserted at construction, the sum of the two capacities
is preserved.  The analysis works through `matchWeights g u v`, the capacities
of the `u → v` edges in adjacency order: the two first-match updates of a
round change exactly the heads of `matchWeights g u v` and
`matchWeights g v u`, by `-b` and `+b`. -/

theorem capsTo_updateForward_self (tgt : Nat) (b : Int) :
    ∀ (es : List Edge),
    ((updateForward es tgt b).filter (fun e => e.v = tgt)).map (fun e => e.w)
      = match (es.filter (fun e => e.v = tgt)).map (fun e => e.w) with
        | [] => []
        | a :: t => (a - b) :: t := by
  intro es
  induction es with
  | nil => rfl
  | cons e es ih =>
    show ((if e.v = tgt then (⟨e.u, e.v, e.w - b⟩ : Edge) :: es
        else e :: updateForward es tgt b).filter (fun e => e.v = tgt)).map (fun e => e.w) = _
    by_cases he : e.v = tgt
    · rw [if_pos he]
      simp [List.filter_cons, he]
    · rw [if_neg he]
      simp only [List.filter_cons, he, decide_eq_true_eq, if_false]
      exact ih

theorem capsTo_updateForward_other (tgt tgt' : Nat) (b : Int) (hne : tgt' ≠ tgt) :
    ∀ (es : List Edge),
    ((updateForward es tgt b).filter (fun e => e.v = tgt')).map (fun e => e.w)
      = (es.filter (fun e => e.v = tgt')).map (fun e => e.w) := by
  intro es
  induction es with
  | nil => rfl
  | cons e es ih =>
    show ((if e.v = tgt then (⟨e.u, e.v, e.w - b⟩ : Edge) :: es
        else e :: updateForward es tgt b).filter (fun e => e.v = tgt')).map (fun e => e.w) = _
    by_cases he : e.v = tgt
    · rw [if_pos he]
      have he' : ¬(e.v = tgt') := by rw [he]; exact fun h => hne h.symm
      have htt : ¬(tgt = tgt') := fun h => hne h.symm
      simp [List.filter_cons, he, he', htt]
    · rw [if_neg he]
      by_cases he' : e.v = tgt'
      · simp only [List.filter_cons, he', decide_eq_true_eq, if_true, List.map_cons]
        rw [ih]
      · simp only [List.filter_cons, he', decide_eq_true_eq, if_false]
        exact ih

theorem capsTo_updateBackward_self (tgt : Nat) (b : Int) :
    ∀ (es : List Edge),
    ((updateBackward es tgt b).filter (fun e => e.v = tgt)).map (fun e => e.w)
      = match (es.filter (fun e => e.v = tgt)).map (fun e => e.w) with
        | [] => []
        | a :: t => (a + b) :: t := by
  intro es
  induction es with
  | nil => rfl
  | cons e es ih =>
    show ((if e.v = tgt then (⟨e.u, e.v, e.w + b⟩ : Edge) :: es
        else e :: updateBackward es tgt b).filter (fun e => e.v = tgt)).map (fun e => e.w) = _
    by_cases he : e.v = tgt
    · rw [if_pos he]
      simp [List.filter_cons, he]
    · rw [if_neg he]
      simp only [List.filter_cons, he, decide_eq_true_eq, if_false]
      exact ih

theorem capsTo_updateBackward_other (tgt tgt' : Nat) (b : Int) (hne : tgt' ≠ tgt) :
    ∀ (es : List Edge),
    ((updateBackward es tgt b).filter (fun e => e.v = tgt')).map (fun e => e.w)
      = (es.filter (fun e => e.v = tgt')).map (fun e => e.w) := by
  intro es
  induction es with
  | nil => rfl
  | cons e es ih =>
    show ((if e.v = tgt then (⟨e.u, e.v, e.w + b⟩ : Edge) :: es
        else e :: updateBackward es tgt b).filter (fun e => e.v = tgt')).map (fun e => e.w) = _
    by_cases he : e.v = tgt
    · rw [if_pos he]
      have he' : ¬(e.v = tgt') := by rw [he]; exact fun h => hne h.symm
      have htt : ¬(tgt = tgt') := fun h => hne h.symm
      simp [List.filter_cons, he, he', htt]
    · rw [if_neg he]
      by_cases he' : e.v = tgt'
      · simp only [List.filter_cons, he', decide_eq_true_eq, if_true, List.map_cons]
        rw [ih]
      · simp only [List.filter_cons, he', decide_eq_true_eq, if_false]
        exact ih

theorem updateForward_no_match (tgt : Nat) (b : Int) :
    ∀ (es : List Edge),
    (es.filter (fun e => e.v = tgt)).map (fun e => e.w) = [] →
    updateForward es tgt b = es := by
  intro es
  induction es with
  | nil => intro _; rfl
  | cons e es ih =>
    intro h
    by_cases he : e.v = tgt
    · simp [List.filter_cons, he] at h
    · show (if e.v = tgt then (⟨e.u, e.v, e.w - b⟩ : Edge) :: es
        else e :: updateForward es tgt b) = e :: es
      rw [if_neg he]
      simp only [List.filter_cons, he, decide_eq_true_eq, if_false] at h
      rw [ih h]

theorem updateBackward_no_match (tgt : Nat) (b : Int) :
    ∀ (es : List Edge),
    (es.filter (fun e => e.v = tgt)).map (fun e => e.w) = [] →
    updateBackward es tgt b = es := by
  intro es
  induction es with
  | nil => intro _; rfl
  | cons e es ih =>
    intro h
    by_cases he : e.v = tgt
    · simp [List.filter_cons, he] at h
    · show (if e.v = tgt then (⟨e.u, e.v, e.w + b⟩ : Edge) :: es
        else e :: updateBackward es tgt b) = e :: es
      rw [if_neg he]
      simp only [List.filter_cons, he, decide_eq_true_eq, if_false] at h
      rw [ih h]

theorem updateForward_nonneg (tgt : Nat) (b : Int) :
    ∀ (es : List Edge), (∀ e ∈ es, 0 ≤ e.w) →
    (∀ a t, (es.filter (fun e => e.v = tgt)).map (fun e => e.w) = a :: t → b ≤ a) →
    ∀ e ∈ updateForward es tgt b, 0 ≤ e.w := by
  intro es
  induction es with
  | nil => intro _ _ e he; exact absurd he (List.not_mem_nil e)
  | cons e es ih =>
    intro hnn hb e' he'
    by_cases he : e.v = tgt
    · rw [show updateForward (e :: es) tgt b
          = (⟨e.u, e.v, e.w - b⟩ : Edge) :: es from by
        show (if e.v = tgt then _ else _) = _
        rw [if_pos he]] at he'
      rcases List.mem_cons.mp he' with h1 | h1
      · rw [h1]
        show 0 ≤ e.w - b
        have hcaps : ((e :: es).filter (fun x => x.v = tgt)).map (fun x => x.w)
            = e.w :: (es.filter (fun x => x.v = tgt)).map (fun x => x.w) := by
          simp [List.filter_cons, he]
        have hbw : b ≤ e.w := hb e.w _ hcaps
        have h0 : 0 ≤ e.w := hnn e (by simp)
        omega
      · exact hnn e' (by simp [h1])
    · rw [show updateForward (e :: es) tgt b = e :: updateForward es tgt b from by
        show (if e.v = tgt then _ else _) = _
        rw [if_neg he]] at he'
      rcases List.mem_cons.mp he' with h1 | h1
      · rw [h1]
        exact hnn e (by simp)
      · refine ih (fun x hx => hnn x (by simp [hx])) ?_ e' h1
        intro a t ht
        refine hb a t ?_
        simp only [List.filter_cons, he, decide_eq_true_eq, if_false]
        exact ht

theorem updateBackward_nonneg (tgt : Nat) (b : Int) (hb : 0 ≤ b) :
    ∀ (es : List Edge), (∀ e ∈ es, 0 ≤ e.w) →
    ∀ e ∈ updateBackward es tgt b, 0 ≤ e.w := by
  intro es
  induction es with
  | nil => intro _ e he; exact absurd he (List.not_mem_nil e)
  | cons e es ih =>
    intro hnn e' he'
    by_cases he : e.v = tgt
    · rw [show updateBackward (e :: es) tgt b
          = (⟨e.u, e.v, e.w + b⟩ : Edge) :: es from by
        show (if e.v = tgt then _ else _) = _
        rw [if_pos he]] at he'
      rcases List.mem_cons.mp he' with h1 | h1
      · rw [h1]
        show 0 ≤ e.w + b
        have := hnn e (by simp)
        omega
      · exact hnn e' (by simp [h1])
    · rw [show updateBackward (e :: es) tgt b = e :: updateBackward es tgt b from by
        show (if e.v = tgt then _ else _) = _
        rw [if_neg he]] at he'
      rcases List.mem_cons.mp he' with h1 | h1
      · rw [h1]
        exact hnn e (by simp)
      · exact ih (fun x hx => hnn x (by simp [hx])) e' h1

/-! ### Effect of `updatePair` on the per-pair capacity lists -/

theorem getD_nonneg (g : Graph) (hnn : Nonneg g) (u : Nat) :
    ∀ e ∈ g.getD u [], 0 ≤ e.w := by
  intro e he
  by_cases hu : u < g.length
  · have hmem : g.getD u [] ∈ g := by
      rw [List.getD_eq_getElem g [] hu]
      exact List.getElem_mem hu
    exact hnn _ hmem e he
  · rw [List.getD_eq_default g [] (by omega)] at he
    exact absurd he (by simp)

theorem getD_set_self {α : Type} (d x : α) :
    ∀ (l : List α) (n : Nat), n < l.length → (l.set n x).getD n d = x := by
  intro l
  induction l with
  | nil => intro n h; exact absurd h (by simp)
  | cons a l ih =>
    intro n h
    cases n with
    | zero => rfl
    | succ n =>
      show (a :: l.set n x).getD (n + 1) d = x
      rw [List.getD_cons_succ]
      exact ih n (by simp only [List.length_cons] at h; omega)

theorem getD_set_ne {α : Type} (d x : α) (g : List α) (m n : Nat) (h : m ≠ n) :
    (g.set n x).getD m d = g.getD m d := by
  rw [List.getD_eq_getElem?_getD, List.getD_eq_getElem?_getD,
    List.getElem?_set_ne (show n ≠ m from fun hnm => h hnm.symm)]

theorem getD_set_fn {α : Type} (g : List (List α)) (n : Nat) (f : List α → List α)
    (hf : f [] = []) :
    (g.set n (f (g.getD n []))).getD n [] = f (g.getD n []) := by
  by_cases h : n < g.length
  · exact getD_set_self [] _ g n h
  · rw [List.set_eq_of_length_le (by omega), List.getD_eq_default g [] (by omega), hf]

theorem getD_updatePair_fst (b : Int) (g : Graph) (u v : Nat) (hne : u ≠ v) :
    (updatePair b g u v).getD u [] = updateForward (g.getD u []) v b := by
  show ((g.set u (updateForward (g.getD u []) v b)).set v
      (updateBackward ((g.set u (updateForward (g.getD u []) v b)).getD v []) u b)).getD u []
    = updateForward (g.getD u []) v b
  rw [getD_set_ne [] _ _ u v hne]
  exact getD_set_fn g u (fun es => updateForward es v b) rfl

theorem getD_updatePair_snd (b : Int) (g : Graph) (u v : Nat) (hne : u ≠ v) :
    (updatePair b g u v).getD v [] = updateBackward (g.getD v []) u b := by
  show ((g.set u (updateForward (g.getD u []) v b)).set v
      (updateBackward ((g.set u (updateForward (g.getD u []) v b)).getD v []) u b)).getD v []
    = updateBackward (g.getD v []) u b
  have h1 : ((g.set u (updateForward (g.getD u []) v b)).set v
      (updateBackward ((g.set u (updateForward (g.getD u []) v b)).getD v []) u b)).getD v []
      = updateBackward ((g.set u (updateForward (g.getD u []) v b)).getD v []) u b :=
    getD_set_fn (g.set u (updateForward (g.getD u []) v b)) v
      (fun es => updateBackward es u b) rfl
  rw [h1, getD_set_ne [] _ g v u (fun h => hne h.symm)]

theorem getD_updatePair_other (b : Int) (g : Graph) (u v p : Nat)
    (hp1 : p ≠ u) (hp2 : p ≠ v) :
    (updatePair b g u v).getD p [] = g.getD p [] := by
  show ((g.set u (updateForward (g.getD u []) v b)).set v
      (updateBackward ((g.set u (updateForward (g.getD u []) v b)).getD v []) u b)).getD p []
    = g.getD p []
  rw [getD_set_ne [] _ _ p v hp2, getD_set_ne [] _ g p u hp1]

theorem matchWeights_updatePair_fwd (b : Int) (g : Graph) (u v : Nat) (hne : u ≠ v) :
    matchWeights (updatePair b g u v) u v
      = match matchWeights g u v with
        | [] => []
        | a :: t => (a - b) :: t := by
  unfold matchWeights
  rw [getD_updatePair_fst b g u v hne]
  exact capsTo_updateForward_self v b (g.getD u [])

theorem matchWeights_updatePair_bwd (b : Int) (g : Graph) (u v : Nat) (hne : u ≠ v) :
    matchWeights (updatePair b g u v) v u
      = match matchWeights g v u with
        | [] => []
        | a :: t => (a + b) :: t := by
  unfold matchWeights
  rw [getD_updatePair_snd b g u v hne]
  exact capsTo_updateBackward_self u b (g.getD v [])

theorem matchWeights_updatePair_other (b : Int) (g : Graph) (u v p q : Nat)
    (hne : u ≠ v) (h1 : (p, q) ≠ (u, v)) (h2 : (p, q) ≠ (v, u)) :
    matchWeights (updatePair b g u v) p q = matchWeights g p q := by
  by_cases hpu : p = u
  · have hq : q ≠ v := fun h => h1 (by rw [hpu, h])
    rw [hpu]
    unfold matchWeights
    rw [getD_updatePair_fst b g u v hne]
    exact capsTo_updateForward_other v q b hq (g.getD u [])
  · by_cases hpv : p = v
    · have hq : q ≠ u := fun h => h2 (by rw [hpv, h])
      rw [hpv]
      unfold matchWeights
      rw [getD_updatePair_snd b g u v hne]
      exact capsTo_updateBackward_other u q b hq (g.getD v [])
    · unfold matchWeights
      rw [getD_updatePair_other b g u v p hpu hpv]

theorem matchWeights_updatePair_length (b : Int) (g : Graph) (u v p q : Nat)
    (hne : u ≠ v) :
    (matchWeights (updatePair b g u v) p q).length = (matchWeights g p q).length := by
  by_cases hp : (p, q) = (u, v)
  · rw [show p = u from congrArg Prod.fst hp, show q = v from congrArg Prod.snd hp]
    rw [matchWeights_updatePair_fwd b g u v hne]
    cases matchWeights g u v <;> rfl
  · by_cases hq : (p, q) = (v, u)
    · rw [show p = v from congrArg Prod.fst hq, show q = u from congrArg Prod.snd hq]
      rw [matchWeights_updatePair_bwd b g u v hne]
      cases matchWeights g v u <;> rfl
    · rw [matchWeights_updatePair_other b g u v p q hne hp hq]

theorem updatePair_sum_core (b : Int) (g : Graph) (u v : Nat)
    (hne : u ≠ v) (hbal : (matchWeights g u v).length = (matchWeights g v u).length)
    (j : Nat) :
    (matchWeights (updatePair b g u v) u v).getD j 0
      + (matchWeights (updatePair b g u v) v u).getD j 0
    = (matchWeights g u v).getD j 0 + (matchWeights g v u).getD j 0 := by
  rw [matchWeights_updatePair_fwd b g u v hne, matchWeights_updatePair_bwd b g u v hne]
  cases hA : matchWeights g u v with
  | nil =>
    cases hB : matchWeights g v u with
    | nil => rfl
    | cons c s => rw [hA, hB] at hbal; simp at hbal
  | cons a t =>
    cases hB : matchWeights g v u with
    | nil => rw [hA, hB] at hbal; simp at hbal
    | cons c s =>
      cases j with
      | zero =>
        show ((a - b) :: t).getD 0 0 + ((c + b) :: s).getD 0 0
          = (a :: t).getD 0 0 + (c :: s).getD 0 0
        simp only [List.getD_cons_zero]
        ring
      | succ i =>
        show ((a - b) :: t).getD (i + 1) 0 + ((c + b) :: s).getD (i + 1) 0
          = (a :: t).getD (i + 1) 0 + (c :: s).getD (i + 1) 0
        simp only [List.getD_cons_succ]

theorem matchWeights_updatePair_sum (b : Int) (g : Graph) (u v : Nat)
    (hne : u ≠ v) (hbal : (matchWeights g u v).length = (matchWeights g v u).length)
    (p q : Nat) (j : Nat) :
    (matchWeights (updatePair b g u v) p q).getD j 0
      + (matchWeights (updatePair b g u v) q p).getD j 0
    = (matchWeights g p q).getD j 0 + (matchWeights g q p).getD j 0 := by
  by_cases hp : (p, q) = (u, v)
  · rw [show p = u from congrArg Prod.fst hp, show q = v from congrArg Prod.snd hp]
    exact updatePair_sum_core b g u v hne hbal j
  · by_cases hq : (p, q) = (v, u)
    · rw [show p = v from congrArg Prod.fst hq, show q = u from congrArg Prod.snd hq]
      have hcore := updatePair_sum_core b g u v hne hbal j
      omega
    · have hq' : (q, p) ≠ (u, v) := fun h => hq (by
        rw [show q = u from congrArg Prod.fst h, show p = v from congrArg Prod.snd h])
      have hp' : (q, p) ≠ (v, u) := fun h => hp (by
        rw [show q = v from congrArg Prod.fst h, show p = u from congrArg Prod.snd h])
      rw [matchWeights_updatePair_other b g u v p q hne hp hq,
        matchWeights_updatePair_other b g u v q p hne hq' hp']

theorem updatePair_nonneg (b : Int) (g : Graph) (u v : Nat) (hne : u ≠ v)
    (hnn : Nonneg g)
    (hcase : (matchWeights g u v = [] ∧ matchWeights g v u = [])
      ∨ (0 ≤ b ∧ ∀ a t, matchWeights g u v = a :: t → b ≤ a)) :
    Nonneg (updatePair b g u v) := by
  have key : Nonneg ((g.set u (updateForward (g.getD u []) v b)).set v
      (updateBackward ((g.set u (updateForward (g.getD u []) v b)).getD v []) u b)) := by
    intro l hl e he
    rcases List.mem_or_eq_of_mem_set hl with hl1 | hl1
    · rcases List.mem_or_eq_of_mem_set hl1 with hl2 | hl2
      · exact hnn l hl2 e he
      · rw [hl2] at he
        rcases hcase with ⟨hf, _⟩ | ⟨hb0, hhead⟩
        · rw [updateForward_no_match v b (g.getD u []) hf] at he
          exact getD_nonneg g hnn u e he
        · exact updateForward_nonneg v b (g.getD u []) (getD_nonneg g hnn u) hhead e he
    · rw [hl1] at he
      have hinner : (g.set u (updateForward (g.getD u []) v b)).getD v [] = g.getD v [] :=
        getD_set_ne [] _ g v u (fun h => hne h.symm)
      rw [hinner] at he
      rcases hcase with ⟨_, hbwd⟩ | ⟨hb0, _⟩
      · rw [updateBackward_no_match u b (g.getD v []) hbwd] at he
        exact getD_nonneg g hnn v e he
      · exact updateBackward_nonneg u b hb0 (g.getD v []) (getD_nonneg g hnn v) e he
  exact key

/-! ### The augmenting path visits distinct vertices -/

theorem getAugmentingPath_nodup (g : Graph) (prev : List (Option Nat))
    (source sink : Nat) (path : List Nat) (s : Int)
    (h : getAugmentingPath g prev source sink = some (path, s)) :
    path.Nodup := by
  unfold getAugmentingPath at h
  rw [getAugmentingPathLoop_eq_walk] at h
  cases hw : prevWalk prev source (g.length + 1) sink with
  | none =>
    rw [hw] at h
    exact absurd h (by simp)
  | some w =>
    rw [hw] at h
    have hpath : path = w.reverse := by
      have hfst := congrArg Prod.fst (Option.some_inj.mp h)
      simpa using hfst.symm
    rw [hpath, List.nodup_reverse]
    exact prevWalk_nodup prev source _ sink w hw

theorem getD_mem_of_lt (l : List Nat) (i : Nat) (hi : i < l.length) : l.getD i 0 ∈ l := by
  rw [List.getD_eq_getElem l 0 hi]
  exact List.getElem_mem hi

theorem zipTail_components (l : List Nat) (u v : Nat) (h : (u, v) ∈ l.zip l.tail) :
    u ∈ l ∧ v ∈ l := by
  obtain ⟨i, hi, h1, h2⟩ := (mem_zipTail l u v).mp h
  exact ⟨h1 ▸ getD_mem_of_lt l i (by omega), h2 ▸ getD_mem_of_lt l (i + 1) hi⟩

theorem zipTail_pairwise :
    ∀ (l : List Nat), l.Nodup →
    (l.zip l.tail).Pairwise
        (fun pr qr => (qr.1, qr.2) ≠ (pr.1, pr.2) ∧ (qr.1, qr.2) ≠ (pr.2, pr.1))
    ∧ ∀ pr ∈ l.zip l.tail, pr.1 ≠ pr.2 := by
  intro l
  induction l with
  | nil => intro _; exact ⟨List.Pairwise.nil, by simp⟩
  | cons a rest ih =>
    intro hnd
    have hna : a ∉ rest := (List.nodup_cons.mp hnd).1
    obtain ⟨ihpw, ihne⟩ := ih (List.nodup_cons.mp hnd).2
    cases rest with
    | nil => exact ⟨List.Pairwise.nil, by simp⟩
    | cons r0 rest' =>
      have hzip : (a :: r0 :: rest').zip (a :: r0 :: rest').tail
          = (a, r0) :: (r0 :: rest').zip ((r0 :: rest').tail : List Nat) := rfl
      rw [hzip]
      constructor
      · refine List.Pairwise.cons ?_ ihpw
        intro qr hqr
        obtain ⟨h1, h2⟩ := zipTail_components (r0 :: rest') qr.1 qr.2 (by
          have : qr = (qr.1, qr.2) := rfl
          rw [← this]
          exact hqr)
        constructor
        · intro heq
          have hq1 : qr.1 = a := congrArg Prod.fst heq
          rw [hq1] at h1
          exact hna h1
        · intro heq
          have hq2 : qr.2 = a := congrArg Prod.snd heq
          rw [hq2] at h2
          exact hna h2
      · intro pr hpr
        rcases List.mem_cons.mp hpr with h1 | h1
        · rw [h1]
          intro heq
          have heq' : a = r0 := heq
          exact hna (by rw [heq']; exact List.mem_cons_self r0 rest')
        · exact ihne pr h1

/-! ### The augmentation fold preserves the invariants -/

theorem pairFold_invariant (b : Int) :
    ∀ (ps : List (Nat × Nat)) (g : Graph),
    Nonneg g →
    (∀ p q, (matchWeights g p q).length = (matchWeights g q p).length) →
    (∀ pr ∈ ps, pr.1 ≠ pr.2) →
    ps.Pairwise (fun pr qr => (qr.1, qr.2) ≠ (pr.1, pr.2) ∧ (qr.1, qr.2) ≠ (pr.2, pr.1)) →
    (∀ pr ∈ ps, matchWeights g pr.1 pr.2 = []
      ∨ (0 ≤ b ∧ ∀ a t, matchWeights g pr.1 pr.2 = a :: t → b ≤ a)) →
    Nonneg (ps.foldl (fun h uv => updatePair b h uv.1 uv.2) g)
    ∧ (∀ p q, (matchWeights (ps.foldl (fun h uv => updatePair b h uv.1 uv.2) g) p q).length
        = (matchWeights g p q).length)
    ∧ (∀ p q j,
        (matchWeights (ps.foldl (fun h uv => updatePair b h uv.1 uv.2) g) p q).getD j 0
          + (matchWeights (ps.foldl (fun h uv => updatePair b h uv.1 uv.2) g) q p).getD j 0
        = (matchWeights g p q).getD j 0 + (matchWeights g q p).getD j 0) := by
  intro ps
  induction ps with
  | nil =>
    intro g hnn _ _ _ _
    exact ⟨hnn, fun p q => rfl, fun p q j => rfl⟩
  | cons pr ps ih =>
    intro g hnn hbal hne hpw hbound
    have hne1 : pr.1 ≠ pr.2 := hne pr (List.mem_cons_self pr ps)
    have hcase : (matchWeights g pr.1 pr.2 = [] ∧ matchWeights g pr.2 pr.1 = [])
        ∨ (0 ≤ b ∧ ∀ a t, matchWeights g pr.1 pr.2 = a :: t → b ≤ a) := by
      rcases hbound pr (List.mem_cons_self pr ps) with hA | hB
      · left
        refine ⟨hA, ?_⟩
        have hlen0 : (matchWeights g pr.2 pr.1).length = 0 := by
          rw [← hbal pr.1 pr.2, hA]
          rfl
        exact List.eq_nil_of_length_eq_zero hlen0
      · exact Or.inr hB
    have hnn1 : Nonneg (updatePair b g pr.1 pr.2) :=
      updatePair_nonneg b g pr.1 pr.2 hne1 hnn hcase
    have hlen1 : ∀ p q, (matchWeights (updatePair b g pr.1 pr.2) p q).length
        = (matchWeights g p q).length :=
      fun p q => matchWeights_updatePair_length b g pr.1 pr.2 p q hne1
    have hbal1 : ∀ p q, (matchWeights (updatePair b g pr.1 pr.2) p q).length
        = (matchWeights (updatePair b g pr.1 pr.2) q p).length := by
      intro p q
      rw [hlen1 p q, hlen1 q p]
      exact hbal p q
    have hsum1 : ∀ p q j, (matchWeights (updatePair b g pr.1 pr.2) p q).getD j 0
        + (matchWeights (updatePair b g pr.1 pr.2) q p).getD j 0
        = (matchWeights g p q).getD j 0 + (matchWeights g q p).getD j 0 :=
      fun p q j => matchWeights_updatePair_sum b g pr.1 pr.2 hne1 (hbal pr.1 pr.2) p q j
    have hframe : ∀ qr ∈ ps, matchWeights (updatePair b g pr.1 pr.2) qr.1 qr.2
        = matchWeights g qr.1 qr.2 := by
      intro qr hqr
      have hrel := List.rel_of_pairwise_cons hpw hqr
      exact matchWeights_updatePair_other b g pr.1 pr.2 qr.1 qr.2 hne1 hrel.1 hrel.2
    have hbound1 : ∀ qr ∈ ps, matchWeights (updatePair b g pr.1 pr.2) qr.1 qr.2 = []
        ∨ (0 ≤ b ∧ ∀ a t,
            matchWeights (updatePair b g pr.1 pr.2) qr.1 qr.2 = a :: t → b ≤ a) := by
      intro qr hqr
      rw [hframe qr hqr]
      exact hbound qr (List.mem_cons_of_mem pr hqr)
    obtain ⟨H1, H2, H3⟩ := ih (updatePair b g pr.1 pr.2) hnn1 hbal1
      (fun qr hqr => hne qr (List.mem_cons_of_mem pr hqr))
      (List.Pairwise.of_cons hpw) hbound1
    have hfold : (pr :: ps).foldl (fun h uv => updatePair b h uv.1 uv.2) g
        = ps.foldl (fun h uv => updatePair b h uv.1 uv.2) (updatePair b g pr.1 pr.2) := rfl
    rw [hfold]
    refine ⟨H1, ?_, ?_⟩
    · intro p q
      rw [H2 p q, hlen1 p q]
    · intro p q j
      rw [H3 p q j]
      exact hsum1 p q j

/-- One augmentation round of `fordFulkerson` preserves non-negativity of all
residual capacities, the per-pair capacity-list lengths, and the per-index
sum of each forward capacity and its paired backward capacity. -/
theorem ffStep_invariant (g : Graph) (source sink : Nat) (g' : Graph) (s : Int)
    (hnn : Nonneg g)
    (hbal : ∀ u v, (matchWeights g u v).length = (matchWeights g v u).length)
    (hstep : ffStep g source sink = some (some (g', s))) :
    Nonneg g'
    ∧ (∀ u v, (matchWeights g' u v).length = (matchWeights g u v).length)
    ∧ (∀ u v j, (matchWeights g' u v).getD j 0 + (matchWeights g' v u).getD j 0
        = (matchWeights g u v).getD j 0 + (matchWeights g v u).getD j 0) := by
  unfold ffStep at hstep
  cases hb : hasAugmentingPath g source sink with
  | none => rw [hb] at hstep; exact absurd hstep (by simp)
  | some res =>
    rw [hb] at hstep
    obtain ⟨found, prev⟩ := res
    cases found with
    | false => exact absurd hstep (by simp)
    | true =>
      replace hstep : (match getAugmentingPath g prev source sink with
          | none => none
          | some (path, smallest) =>
              some (some (augment g prev path smallest, smallest)))
          = some (some (g', s)) := hstep
      cases hg : getAugmentingPath g prev source sink with
      | none => rw [hg] at hstep; exact absurd hstep (by simp)
      | some pp =>
        rw [hg] at hstep
        obtain ⟨path, sm⟩ := pp
        replace hstep : some (some (augment g prev path sm, sm))
            = some (some (g', s)) := hstep
        have hpair : (augment g prev path sm, sm) = (g', s) :=
          Option.some_inj.mp (Option.some_inj.mp hstep)
        have hg2 : augment g prev path sm = g' := congrArg Prod.fst hpair
        rw [← hg2]
        obtain ⟨hhead, hlast, hcoh, hbnd⟩ :=
          getAugmentingPath_spec g prev source sink path sm hnn hg
        have hnd := getAugmentingPath_nodup g prev source sink path sm hg
        have haug := augment_eq_pairFold g prev path sm hcoh
        obtain ⟨hpwAll, hneAll⟩ := zipTail_pairwise path hnd
        have hsub : (path.zip path.tail).dropLast.Sublist (path.zip path.tail) :=
          List.dropLast_sublist _
        have hpw := hpwAll.sublist hsub
        have hne : ∀ pr ∈ (path.zip path.tail).dropLast, pr.1 ≠ pr.2 :=
          fun pr h => hneAll pr (hsub.subset h)
        have hbound : ∀ pr ∈ (path.zip path.tail).dropLast,
            matchWeights g pr.1 pr.2 = []
            ∨ (0 ≤ sm ∧ ∀ a t, matchWeights g pr.1 pr.2 = a :: t → sm ≤ a) := by
          intro pr hpr
          have hzmem : (pr.1, pr.2) ∈ path.zip path.tail := hsub.subset hpr
          obtain ⟨i, hi, hA, hB⟩ := (mem_zipTail path pr.1 pr.2).mp hzmem
          rcases hbnd with ⟨hemp, hsm⟩ | ⟨hmem, hmin⟩
          · left
            cases hmw : matchWeights g pr.1 pr.2 with
            | nil => rfl
            | cons a t =>
              exfalso
              have ha : a ∈ pathMatchCaps g path := (pathMatchCaps_mem g path a).mpr
                ⟨i, hi, by rw [hA, hB, hmw]; exact List.mem_cons_self a t⟩
              rw [hemp] at ha
              exact absurd ha (by simp)
          · right
            constructor
            · obtain ⟨j, hj, hjm⟩ := (pathMatchCaps_mem g path sm).mp hmem
              exact matchWeights_nonneg g hnn _ _ sm hjm
            · intro a t hmw
              refine hmin a ?_
              exact (pathMatchCaps_mem g path a).mpr
                ⟨i, hi, by rw [hA, hB, hmw]; exact List.mem_cons_self a t⟩
        obtain ⟨H1, H2, H3⟩ := pairFold_invariant sm ((path.zip path.tail).dropLast) g
          hnn hbal hne hpw hbound
        rw [haug]
        exact ⟨H1, H2, H3⟩

/-! ### The constructed graph: adjacency characterisation, pair balance,
and the zero-capacity reverse side -/

/-- The four shapes of forward edges inserted by `maxThroughput`:
`inGate(i) → in(i)`, `in(i) → outGate(i)`, `outGate(a) → inGate(b)` and
`in(t) → superSink`. -/
def shapeFwd (N u v : Nat) : Prop :=
  (v < N ∧ u = v + N) ∨ (u < N ∧ v = u + 2 * N)
    ∨ (2 * N ≤ u ∧ u < 3 * N ∧ N ≤ v ∧ v < 2 * N) ∨ (u < N ∧ v = 3 * N)

theorem shapeFwd_asymm (N u v : Nat) (hN : 1 ≤ N)
    (h1 : shapeFwd N u v) (h2 : shapeFwd N v u) : False := by
  unfold shapeFwd at h1 h2
  omega

theorem getD_int_nonneg (l : List Int) (hl : ∀ x ∈ l, 0 ≤ x) (i : Nat) :
    0 ≤ l.getD i 0 := by
  by_cases h : i < l.length
  · rw [List.getD_eq_getElem l 0 h]
    exact hl _ (List.getElem_mem h)
  · rw [List.getD_eq_default l 0 (by omega)]

theorem getD_replicate_nil {α : Type} (V u : Nat) :
    (List.replicate V ([] : List α)).getD u [] = [] := by
  by_cases h : u < V
  · have hlen : u < (List.replicate V ([] : List α)).length := by simpa using h
    rw [List.getD_eq_getElem _ _ hlen]
    simp
  · rw [List.getD_eq_default _ _ (by simpa using Nat.le_of_not_lt h)]

theorem foldl_addEdge_getD :
    ∀ (pre : List (Nat × Nat × Int)) (g : Graph) (u : Nat),
    (∀ p ∈ pre, p.1 < g.length) → u < g.length →
    (pre.foldl (fun vs c => addEdge vs ⟨c.1, c.2.1, c.2.2⟩) g).getD u []
      = g.getD u [] ++ (pre.filter (fun p => p.1 = u)).map
          (fun p => (⟨p.1, p.2.1, p.2.2⟩ : Edge)) := by
  intro pre
  induction pre with
  | nil => intro g u _ _; simp
  | cons p ps ih =>
    intro g u hb hu
    rw [List.foldl_cons]
    have hlen : (addEdge g ⟨p.1, p.2.1, p.2.2⟩).length = g.length := by
      unfold addEdge; simp
    rw [ih (addEdge g ⟨p.1, p.2.1, p.2.2⟩) u
      (fun q hq => by rw [hlen]; exact hb q (List.mem_cons_of_mem p hq))
      (by rw [hlen]; exact hu)]
    by_cases hpu : p.1 = u
    · have hget : (addEdge g ⟨p.1, p.2.1, p.2.2⟩).getD u []
          = g.getD u [] ++ [⟨p.1, p.2.1, p.2.2⟩] := by
        show (g.set p.1 (g.getD p.1 [] ++ [(⟨p.1, p.2.1, p.2.2⟩ : Edge)])).getD u []
          = g.getD u [] ++ [(⟨p.1, p.2.1, p.2.2⟩ : Edge)]
        rw [hpu]
        exact getD_set_self [] _ g u hu
      rw [hget]
      simp [List.filter_cons, hpu, List.append_assoc]
    · have hget : (addEdge g ⟨p.1, p.2.1, p.2.2⟩).getD u [] = g.getD u [] := by
        show (g.set p.1 (g.getD p.1 [] ++ [(⟨p.1, p.2.1, p.2.2⟩ : Edge)])).getD u []
          = g.getD u []
        exact getD_set_ne [] _ g u p.1 (fun h => hpu h.symm)
      rw [hget]
      simp [List.filter_cons, hpu]

theorem mkGraph_getD (pre : List (Nat × Nat × Int)) (V u : Nat)
    (hb : ∀ p ∈ pre, p.1 < V) (hu : u < V) :
    (mkGraph pre V).getD u []
      = (pre.filter (fun p => p.1 = u)).map (fun p => (⟨p.1, p.2.1, p.2.2⟩ : Edge)) := by
  show (pre.foldl (fun vs c => addEdge vs ⟨c.1, c.2.1, c.2.2⟩)
      (List.replicate V [])).getD u [] = _
  rw [foldl_addEdge_getD pre (List.replicate V []) u
    (by intro p hp; simpa using hb p hp) (by simpa using hu),
    getD_replicate_nil V u]
  simp

theorem capsTo_filterMap :
    ∀ (l : List (Nat × Nat × Int)) (u v : Nat),
    (((l.filter (fun p => p.1 = u)).map (fun p => (⟨p.1, p.2.1, p.2.2⟩ : Edge))).filter
        (fun e => e.v = v)).map (fun e => e.w)
      = (l.filter (fun p => p.1 = u ∧ p.2.1 = v)).map (fun p => p.2.2) := by
  intro l u v
  induction l with
  | nil => rfl
  | cons p l ih =>
    by_cases h1 : p.1 = u
    · by_cases h2 : p.2.1 = v
      · simp [List.filter_cons, h1, h2, ih]
      · simp [List.filter_cons, h1, h2, ih]
    · simp [List.filter_cons, h1, ih]

theorem matchWeights_mkGraph_all (pre : List (Nat × Nat × Int)) (V u v : Nat)
    (hb : ∀ p ∈ pre, p.1 < V) :
    matchWeights (mkGraph pre V) u v
      = (pre.filter (fun p => p.1 = u ∧ p.2.1 = v)).map (fun p => p.2.2) := by
  by_cases hu : u < V
  · unfold matchWeights
    rw [mkGraph_getD pre V u hb hu]
    exact capsTo_filterMap pre u v
  · have h1 : matchWeights (mkGraph pre V) u v = [] := by
      unfold matchWeights
      rw [List.getD_eq_default _ _ (by rw [mkGraph_length]; omega)]
      rfl
    have h2 : pre.filter (fun p => p.1 = u ∧ p.2.1 = v) = [] := by
      refine List.filter_eq_nil_iff.mpr ?_
      intro p hp hcon
      have hcc : p.1 = u ∧ p.2.1 = v := by simpa using hcon
      have hblt := hb p hp
      obtain ⟨h3, h4⟩ := hcc
      omega
    rw [h1, h2]
    rfl

theorem preprocessed_eq_flatMap (c : List (Nat × Nat × Int)) (mi mo : List Int)
    (tg : List Nat) :
    preprocessedConnections c mi mo tg
      = (((List.range mi.length).map (fun i => (i + mi.length, i, mi.getD i 0)))
        ++ ((List.range mo.length).map (fun i => (i, i + mi.length * 2, mo.getD i 0)))
        ++ (c.map (fun x => (x.1 + mi.length * 2, x.2.1 + mi.length, x.2.2)))
        ++ (tg.map (fun t => (t, mi.length * 3, mi.getD t 0)))).flatMap
          (fun q => [q, (q.2.1, q.1, (0 : Int))]) := by
  rw [preprocessed_eq_segments]
  simp only [List.flatMap_def, List.map_append, List.flatten_append, List.map_map]
  rfl

theorem filter_pair_length_comm {α : Type} (a b : α) (P Q : α → Bool)
    (hab : P a = Q b) (hba : P b = Q a) :
    (List.filter P [a, b]).length = (List.filter Q [a, b]).length := by
  have hQa : Q a = P b := hba.symm
  have hQb : Q b = P a := hab.symm
  cases hPa : P a <;> cases hPb : P b <;>
    simp [List.filter_cons, hPa, hPb, hQa, hQb]

theorem pairExpand_balance :
    ∀ (l : List (Nat × Nat × Int)) (u v : Nat),
    ((l.flatMap (fun q => [q, (q.2.1, q.1, (0 : Int))])).filter
        (fun p => p.1 = u ∧ p.2.1 = v)).length
    = ((l.flatMap (fun q => [q, (q.2.1, q.1, (0 : Int))])).filter
        (fun p => p.1 = v ∧ p.2.1 = u)).length := by
  intro l u v
  induction l with
  | nil => rfl
  | cons q l ih =>
    rw [List.flatMap_cons]
    rw [List.filter_append, List.filter_append, List.length_append, List.length_append, ih]
    have key : (List.filter (fun p => decide (p.1 = u ∧ p.2.1 = v))
          [q, (q.2.1, q.1, (0 : Int))]).length
        = (List.filter (fun p => decide (p.1 = v ∧ p.2.1 = u))
          [q, (q.2.1, q.1, (0 : Int))]).length := by
      refine filter_pair_length_comm q (q.2.1, q.1, (0 : Int)) _ _ ?_ ?_
      · show decide (q.1 = u ∧ q.2.1 = v) = decide (q.2.1 = v ∧ q.1 = u)
        rw [decide_eq_decide]
        exact and_comm
      · show decide (q.2.1 = u ∧ q.1 = v) = decide (q.1 = v ∧ q.2.1 = u)
        rw [decide_eq_decide]
        exact and_comm
    omega

theorem preprocessed_balance (c : List (Nat × Nat × Int)) (mi mo : List Int)
    (tg : List Nat) (u v : Nat)
    (hb : ∀ p ∈ preprocessedConnections c mi mo tg, p.1 < mi.length * 3 + 1) :
    (matchWeights (mkGraph (preprocessedConnections c mi mo tg)
        (mi.length * 3 + 1)) u v).length
    = (matchWeights (mkGraph (preprocessedConnections c mi mo tg)
        (mi.length * 3 + 1)) v u).length := by
  rw [matchWeights_mkGraph_all _ _ u v hb, matchWeights_mkGraph_all _ _ v u hb]
  simp only [List.length_map]
  rw [preprocessed_eq_flatMap]
  exact pairExpand_balance _ u v

theorem preprocessed_wf (c : List (Nat × Nat × Int)) (mi mo : List Int) (tg : List Nat)
    (hc : ∀ x ∈ c, x.1 < mi.length ∧ x.2.1 < mi.length ∧ 0 ≤ x.2.2)
    (hmi : ∀ x ∈ mi, 0 ≤ x) (hmo : ∀ x ∈ mo, 0 ≤ x)
    (hlen : mo.length = mi.length) (ht : ∀ t ∈ tg, t < mi.length) :
    ∀ p ∈ preprocessedConnections c mi mo tg,
      p.1 < mi.length * 3 + 1 ∧ p.2.1 < mi.length * 3 + 1 ∧ 0 ≤ p.2.2
      ∧ (p.2.2 = 0 ∨ shapeFwd mi.length p.1 p.2.1) := by
  intro p hp
  rw [preprocessed_eq_segments] at hp
  rcases List.mem_append.mp hp with hp123 | hp4
  · rcases List.mem_append.mp hp123 with hp12 | hp3
    · rcases List.mem_append.mp hp12 with hp1 | hp2
      · obtain ⟨l, hl, hpl⟩ := List.mem_flatten.mp hp1
        obtain ⟨i, hi, rfl⟩ := List.mem_map.mp hl
        have hiN : i < mi.length := List.mem_range.mp hi
        rcases List.mem_cons.mp hpl with h | h
        · rw [h]
          refine ⟨?_, ?_, ?_, ?_⟩
          · show i + mi.length < mi.length * 3 + 1
            omega
          · show i < mi.length * 3 + 1
            omega
          · show (0 : Int) ≤ mi.getD i 0
            exact getD_int_nonneg mi hmi i
          · right
            show shapeFwd mi.length (i + mi.length) i
            unfold shapeFwd
            omega
        · rw [List.mem_singleton.mp h]
          refine ⟨?_, ?_, ?_, Or.inl rfl⟩
          · show i < mi.length * 3 + 1
            omega
          · show i + mi.length < mi.length * 3 + 1
            omega
          · show (0 : Int) ≤ 0
            omega
      · obtain ⟨l, hl, hpl⟩ := List.mem_flatten.mp hp2
        obtain ⟨i, hi, rfl⟩ := List.mem_map.mp hl
        have hiN : i < mo.length := List.mem_range.mp hi
        rcases List.mem_cons.mp hpl with h | h
        · rw [h]
          refine ⟨?_, ?_, ?_, ?_⟩
          · show i < mi.length * 3 + 1
            omega
          · show i + mi.length * 2 < mi.length * 3 + 1
            omega
          · show (0 : Int) ≤ mo.getD i 0
            exact getD_int_nonneg mo hmo i
          · right
            show shapeFwd mi.length i (i + mi.length * 2)
            unfold shapeFwd
            omega
        · rw [List.mem_singleton.mp h]
          refine ⟨?_, ?_, ?_, Or.inl rfl⟩
          · show i + mi.length * 2 < mi.length * 3 + 1
            omega
          · show i < mi.length * 3 + 1
            omega
          · show (0 : Int) ≤ 0
            omega
    · obtain ⟨l, hl, hpl⟩ := List.mem_flatten.mp hp3
      obtain ⟨x, hx, rfl⟩ := List.mem_map.mp hl
      obtain ⟨hx1, hx2, hx3⟩ := hc x hx
      rcases List.mem_cons.mp hpl with h | h
      · rw [h]
        refine ⟨?_, ?_, ?_, ?_⟩
        · show x.1 + mi.length * 2 < mi.length * 3 + 1
          omega
        · show x.2.1 + mi.length < mi.length * 3 + 1
          omega
        · exact hx3
        · right
          show shapeFwd mi.length (x.1 + mi.length * 2) (x.2.1 + mi.length)
          unfold shapeFwd
          omega
      · rw [List.mem_singleton.mp h]
        refine ⟨?_, ?_, ?_, Or.inl rfl⟩
        · show x.2.1 + mi.length < mi.length * 3 + 1
          omega
        · show x.1 + mi.length * 2 < mi.length * 3 + 1
          omega
        · show (0 : Int) ≤ 0
          omega
  · obtain ⟨l, hl, hpl⟩ := List.mem_flatten.mp hp4
    obtain ⟨t, htg, rfl⟩ := List.mem_map.mp hl
    have htN : t < mi.length := ht t htg
    rcases List.mem_cons.mp hpl with h | h
    · rw [h]
      refine ⟨?_, ?_, ?_, ?_⟩
      · show t < mi.length * 3 + 1
        omega
      · show mi.length * 3 < mi.length * 3 + 1
        omega
      · show (0 : Int) ≤ mi.getD t 0
        exact getD_int_nonneg mi hmi t
      · right
        show shapeFwd mi.length t (mi.length * 3)
        unfold shapeFwd
        omega
    · rw [List.mem_singleton.mp h]
      refine ⟨?_, ?_, ?_, Or.inl rfl⟩
      · show mi.length * 3 < mi.length * 3 + 1
        omega
      · show t < mi.length * 3 + 1
        omega
      · show (0 : Int) ≤ 0
        omega

theorem preprocessed_nonneg (c : List (Nat × Nat × Int)) (mi mo : List Int)
    (tg : List Nat)
    (hc : ∀ x ∈ c, x.1 < mi.length ∧ x.2.1 < mi.length ∧ 0 ≤ x.2.2)
    (hmi : ∀ x ∈ mi, 0 ≤ x) (hmo : ∀ x ∈ mo, 0 ≤ x)
    (hlen : mo.length = mi.length) (ht : ∀ t ∈ tg, t < mi.length) :
    Nonneg (mkGraph (preprocessedConnections c mi mo tg) (mi.length * 3 + 1)) := by
  have hwf := preprocessed_wf c mi mo tg hc hmi hmo hlen ht
  exact mkGraph_forall (fun e => 0 ≤ e.w) _ _ (fun p hp => (hwf p hp).2.2.1)

/-- In the constructed graph, for every ordered vertex pair at least one of the
two directions carries only zero-capacity edges: every inserted pair is one
forward edge plus one zero reverse edge, and for well-formed input no ordered
pair is simultaneously a forward direction and a reverse direction. -/
theorem preprocessed_oneside (c : List (Nat × Nat × Int)) (mi mo : List Int)
    (tg : List Nat)
    (hc : ∀ x ∈ c, x.1 < mi.length ∧ x.2.1 < mi.length ∧ 0 ≤ x.2.2)
    (hmi : ∀ x ∈ mi, 0 ≤ x) (hmo : ∀ x ∈ mo, 0 ≤ x)
    (hlen : mo.length = mi.length) (ht : ∀ t ∈ tg, t < mi.length) :
    ∀ u v,
    (∀ x ∈ matchWeights (mkGraph (preprocessedConnections c mi mo tg)
        (mi.length * 3 + 1)) u v, x = 0)
    ∨ (∀ x ∈ matchWeights (mkGraph (preprocessedConnections c mi mo tg)
        (mi.length * 3 + 1)) v u, x = 0) := by
  intro u v
  have hwf := preprocessed_wf c mi mo tg hc hmi hmo hlen ht
  have hb1 : ∀ p ∈ preprocessedConnections c mi mo tg, p.1 < mi.length * 3 + 1 :=
    fun p hp => (hwf p hp).1
  by_cases hN : mi.length = 0
  · left
    intro x hx
    rw [matchWeights_mkGraph_all _ _ u v hb1] at hx
    obtain ⟨p, hpf, hpx⟩ := List.mem_map.mp hx
    have hpmem : p ∈ preprocessedConnections c mi mo tg := List.mem_of_mem_filter hpf
    rcases (hwf p hpmem).2.2.2 with h0 | hs
    · rw [← hpx]
      exact h0
    · exfalso
      unfold shapeFwd at hs
      have hp1 := (hwf p hpmem).1
      omega
  · by_contra hcon
    push_neg at hcon
    obtain ⟨⟨x, hx, hx0⟩, ⟨y, hy, hy0⟩⟩ := hcon
    rw [matchWeights_mkGraph_all _ _ u v hb1] at hx
    rw [matchWeights_mkGraph_all _ _ v u hb1] at hy
    obtain ⟨p, hpf, hpx⟩ := List.mem_map.mp hx
    obtain ⟨q, hqf, hqy⟩ := List.mem_map.mp hy
    have hpmem : p ∈ preprocessedConnections c mi mo tg := List.mem_of_mem_filter hpf
    have hqmem : q ∈ preprocessedConnections c mi mo tg := List.mem_of_mem_filter hqf
    have hpcond : p.1 = u ∧ p.2.1 = v := by
      have := List.of_mem_filter hpf
      simpa using this
    have hqcond : q.1 = v ∧ q.2.1 = u := by
      have := List.of_mem_filter hqf
      simpa using this
    have hshape1 : shapeFwd mi.length u v := by
      rcases (hwf p hpmem).2.2.2 with h0 | hs
      · exact absurd (by rw [← hpx, h0]) hx0
      · rw [← hpcond.1, ← hpcond.2]
        exact hs
    have hshape2 : shapeFwd mi.length v u := by
      rcases (hwf q hqmem).2.2.2 with h0 | hs
      · exact absurd (by rw [← hqy, h0]) hy0
      · rw [← hqcond.1, ← hqcond.2]
        exact hs
    exact shapeFwd_asymm mi.length u v (by omega) hshape1 hshape2

/-- The invariants hold after every sequence of completed augmentation rounds:
induction over `ffRounds` using `ffStep_invariant`. -/
theorem ffRounds_invariant (source sink : Nat) :
    ∀ (k : Nat) (g : Graph) (fl : Int),
    Nonneg g →
    (∀ u v, (matchWeights g u v).length = (matchWeights g v u).length) →
    ∀ (g' : Graph) (fl' : Int),
    ffRounds source sink k g fl = some (g', fl') →
    Nonneg g'
    ∧ (∀ u v, (matchWeights g' u v).length = (matchWeights g u v).length)
    ∧ (∀ u v j, (matchWeights g' u v).getD j 0 + (matchWeights g' v u).getD j 0
        = (matchWeights g u v).getD j 0 + (matchWeights g v u).getD j 0) := by
  intro k
  induction k with
  | zero =>
    intro g fl hnn hbal g' fl' h
    have hpair : (g, fl) = (g', fl') := Option.some_inj.mp h
    have hg : g = g' := congrArg Prod.fst hpair
    rw [← hg]
    exact ⟨hnn, fun u v => rfl, fun u v j => rfl⟩
  | succ m ih =>
    intro g fl hnn hbal g' fl' h
    replace h : (match ffStep g source sink with
        | some (some (g1, s)) => ffRounds source sink m g1 (fl + s)
        | _ => none) = some (g', fl') := h
    cases hs : ffStep g source sink with
    | none => rw [hs] at h; exact absurd h (by simp)
    | some o =>
      cases o with
      | none => rw [hs] at h; exact absurd h (by simp)
      | some pr =>
        obtain ⟨g1, s⟩ := pr
        rw [hs] at h
        replace h : ffRounds source sink m g1 (fl + s) = some (g', fl') := h
        obtain ⟨S1, S2, S3⟩ := ffStep_invariant g source sink g1 s hnn hbal hs
        have hbal1 : ∀ u v, (matchWeights g1 u v).length
            = (matchWeights g1 v u).length := by
          intro u v
          rw [S2 u v, S2 v u]
          exact hbal u v
        obtain ⟨H1, H2, H3⟩ := ih g1 (fl + s) S1 hbal1 g' fl' h
        refine ⟨H1, ?_, ?_⟩
        · intro u v
          rw [H2 u v, S2 u v]
        · intro u v j
          rw [H3 u v j]
          exact S3 u v j

/-- C6: for every well-formed input (channel endpoints in range with
non-negative capacities, non-negative `maxIn`/`maxOut` of equal length,
targets in range), after every augmentation round of `fordFulkerson` on the
constructed graph every residual capacity is non-negative, and for every
ordered vertex pair and every parallel-edge index the sum of the `u → v`
capacity and its paired `v → u` capacity is unchanged from construction —
which equals the forward edge's original capacity, since at construction one
of the two directions of every pair carries only the zero-capacity reverse
edges (third conjunct). -/
theorem residual_invariants (c : List (Nat × Nat × Int)) (mi mo : List Int)
    (o : Nat) (tg : List Nat) (k : Nat) (g' : Graph) (fl : Int)
    (hc : ∀ x ∈ c, x.1 < mi.length ∧ x.2.1 < mi.length ∧ 0 ≤ x.2.2)
    (hmi : ∀ x ∈ mi, 0 ≤ x) (hmo : ∀ x ∈ mo, 0 ≤ x)
    (hlen : mo.length = mi.length)
    (ht : ∀ t ∈ tg, t < mi.length)
    (hrun : ffRounds o (mi.length * 3) k
        (mkGraph (preprocessedConnections c mi mo tg) (mi.length * 3 + 1)) 0
        = some (g', fl)) :
    Nonneg g'
    ∧ (∀ u v j,
        (matchWeights g' u v).getD j 0 + (matchWeights g' v u).getD j 0
          = (matchWeights (mkGraph (preprocessedConnections c mi mo tg)
              (mi.length * 3 + 1)) u v).getD j 0
            + (matchWeights (mkGraph (preprocessedConnections c mi mo tg)
              (mi.length * 3 + 1)) v u).getD j 0)
    ∧ (∀ u v,
        (∀ x ∈ matchWeights (mkGraph (preprocessedConnections c mi mo tg)
            (mi.length * 3 + 1)) u v, x = 0)
        ∨ (∀ x ∈ matchWeights (mkGraph (preprocessedConnections c mi mo tg)
            (mi.length * 3 + 1)) v u, x = 0)) := by
  have hnn0 := preprocessed_nonneg c mi mo tg hc hmi hmo hlen ht
  have hbal0 : ∀ u v,
      (matchWeights (mkGraph (preprocessedConnections c mi mo tg)
        (mi.length * 3 + 1)) u v).length
      = (matchWeights (mkGraph (preprocessedConnections c mi mo tg)
        (mi.length * 3 + 1)) v u).length :=
    fun u v => preprocessed_balance c mi mo tg u v
      (fun p hp => (preprocessed_wf c mi mo tg hc hmi hmo hlen ht p hp).1)
  obtain ⟨H1, H2, H3⟩ := ffRounds_invariant o (mi.length * 3) k
    (mkGraph (preprocessedConnections c mi mo tg) (mi.length * 3 + 1)) 0
    hnn0 hbal0 g' fl hrun
  exact ⟨H1, H3, preprocessed_oneside c mi mo tg hc hmi hmo hlen ht⟩

set_option maxHeartbeats 1000000 in
/-- Witness for `residual_invariants` on the spec's first scenario after one
augmentation round. -/
theorem residual_invariants_witness :
    ((∀ x ∈ ([(0, 1, 10)] : List (Nat × Nat × Int)),
        x.1 < ([20, 20] : List Int).length ∧ x.2.1 < ([20, 20] : List Int).length
          ∧ 0 ≤ x.2.2)
      ∧ (∀ x ∈ ([20, 20] : List Int), 0 ≤ x)
      ∧ (∀ x ∈ ([20, 20] : List Int), 0 ≤ x)
      ∧ ([20, 20] : List Int).length = ([20, 20] : List Int).length
      ∧ (∀ t ∈ ([1] : List Nat), t < ([20, 20] : List Int).length)
      ∧ ffRounds 0 (([20, 20] : List Int).length * 3) 1
          (mkGraph (preprocessedConnections [(0, 1, 10)] [20, 20] [20, 20] [1])
            (([20, 20] : List Int).length * 3 + 1)) 0
          = some (scenario1Round1, 10))
    ∧ (Nonneg scenario1Round1
      ∧ (∀ u v j,
          (matchWeights scenario1Round1 u v).getD j 0
            + (matchWeights scenario1Round1 v u).getD j 0
          = (matchWeights (mkGraph
                (preprocessedConnections [(0, 1, 10)] [20, 20] [20, 20] [1])
                (([20, 20] : List Int).length * 3 + 1)) u v).getD j 0
            + (matchWeights (mkGraph
                (preprocessedConnections [(0, 1, 10)] [20, 20] [20, 20] [1])
                (([20, 20] : List Int).length * 3 + 1)) v u).getD j 0)
      ∧ (∀ u v,
          (∀ x ∈ matchWeights (mkGraph
              (preprocessedConnections [(0, 1, 10)] [20, 20] [20, 20] [1])
              (([20, 20] : List Int).length * 3 + 1)) u v, x = 0)
          ∨ (∀ x ∈ matchWeights (mkGraph
              (preprocessedConnections [(0, 1, 10)] [20, 20] [20, 20] [1])
              (([20, 20] : List Int).length * 3 + 1)) v u, x = 0))) :=
  ⟨⟨by decide, by decide, by decide, rfl, by decide, by decide⟩,
    residual_invariants [(0, 1, 10)] [20, 20] [20, 20] 0 [1] 1 scenario1Round1 10
      (by decide) (by decide) (by decide) rfl (by decide) (by decide)⟩
